import Mathlib

/-!
Formal model of the graph-view engine of the d3js-demo repository.

The TypeScript sources are embedded shallowly:
* JavaScript `Map`s become insertion-ordered association lists
  (`mfind` / `mset` mirror `Map.get` / `Map.set`).
* Floating point numbers become rationals (`ℚ`); the transcendental
  functions used by the layout code (`Math.cos`, `Math.sin`, `Math.atan2`,
  `Math.PI`) are abstracted into a `TrigFns` parameter, so every theorem
  about key membership is proved for an arbitrary interpretation of them.
* `string` keys stay `String`; JS `Set`s become duplicate-free lists in
  insertion order (`addUnique`).
-/

namespace NG

/-- `Map.get`: first binding of a key in an insertion-ordered association
list (keys are unique by construction in every map the code builds). -/
def mfind {K V : Type} [DecidableEq K] : List (K × V) → K → Option V
  | [], _ => none
  | (k', v) :: rest, k => if k' = k then some v else mfind rest k

/-- `Map.set`: overwrite the existing binding in place, else append. -/
def mset {K V : Type} [DecidableEq K] : List (K × V) → K → V → List (K × V)
  | [], k, v => [(k, v)]
  | (k', v') :: rest, k, v =>
    if k' = k then (k, v) :: rest else (k', v') :: mset rest k v

/-- `Set.add` on a JS `Set` modelled as a duplicate-free list. -/
def addUnique (l : List String) (v : String) : List String :=
  if l.contains v then l else l ++ [v]

/-- `adj.get(k)!.push(v)`: append `v` to the list bound to `k`
(no-op on an absent key, which the code rules out by construction). -/
def mpush {K : Type} [DecidableEq K] : List (K × List String) → K → String → List (K × List String)
  | [], _, _ => []
  | (k', vs) :: rest, k, v =>
    if k' = k then (k', vs ++ [v]) :: rest else (k', vs) :: mpush rest k v

theorem mfind_append {K V : Type} [DecidableEq K] (m₁ m₂ : List (K × V)) (k : K) :
    mfind (m₁ ++ m₂) k = (mfind m₁ k).or (mfind m₂ k) := by
  induction m₁ with
  | nil => simp [mfind]
  | cons e rest ih =>
    obtain ⟨k', v⟩ := e
    by_cases h : k' = k <;> simp [mfind, h, ih]

theorem mfind_append_of_isSome {K V : Type} [DecidableEq K] {m₁ : List (K × V)} {k : K} {v : V}
    (m₂ : List (K × V)) (h : mfind m₁ k = some v) : mfind (m₁ ++ m₂) k = some v := by
  rw [mfind_append, h]; rfl

theorem mfind_append_single_self {K V : Type} [DecidableEq K] {m : List (K × V)} {k : K}
    (v : V) (h : mfind m k = none) : mfind (m ++ [(k, v)]) k = some v := by
  rw [mfind_append, h]; simp [mfind]

theorem mfind_append_single_cases {K V : Type} [DecidableEq K] {m : List (K × V)}
    {k k₀ : K} {v v₀ : V} (h : mfind (m ++ [(k₀, v₀)]) k = some v) :
    mfind m k = some v ∨ (mfind m k = none ∧ k = k₀ ∧ v = v₀) := by
  rw [mfind_append] at h
  cases h' : mfind m k with
  | some w => rw [h'] at h; exact Or.inl h
  | none =>
    rw [h'] at h
    simp only [Option.or] at h
    right
    refine ⟨rfl, ?_⟩
    by_cases hk : k₀ = k
    · simp [mfind, hk] at h; exact ⟨hk.symm, h.symm⟩
    · simp [mfind, hk] at h

theorem mfind_mset_self {K V : Type} [DecidableEq K] (m : List (K × V)) (k : K) (v : V) :
    mfind (mset m k v) k = some v := by
  induction m with
  | nil => simp [mset, mfind]
  | cons e rest ih =>
    obtain ⟨k', v'⟩ := e
    by_cases h : k' = k <;> simp [mset, mfind, h, ih]

theorem mfind_mset_ne {K V : Type} [DecidableEq K] (m : List (K × V)) {k k' : K} (v : V)
    (h : k' ≠ k) : mfind (mset m k v) k' = mfind m k' := by
  have h' : ¬(k = k') := fun e => h e.symm
  induction m with
  | nil => simp [mset, mfind, h']
  | cons e rest ih =>
    obtain ⟨k₀, v₀⟩ := e
    by_cases h₀ : k₀ = k
    · subst h₀
      simp [mset, mfind, h']
    · by_cases h₁ : k₀ = k' <;> simp [mset, mfind, h₀, h₁, ih, h]

/-! ## Data model (ComponentsType.ts) -/

/-- `NetworkNode` (ComponentsType.ts); only the fields the engine reads. -/
structure NetworkNode where
  key : String
  expandable : Bool := false
deriving DecidableEq

/-- `NetworkEdge` (ComponentsType.ts); only the endpoint fields matter for
connectivity. -/
structure NetworkEdge where
  «from» : String
  «to» : String
deriving DecidableEq

/-- `InternalNodeInfo` (NetworkGraph.utils.ts): `{ depth, parent? }`. -/
structure InternalNodeInfo where
  depth : Nat
  parent : Option String
deriving DecidableEq

/-! ## Level Resolver: `computeTreeLevels` (NetworkGraph.utils.ts, lines 50-86) -/

/-- The undirected adjacency construction of `computeTreeLevels`:
`adj.set(n.key, [])` for each node, then for each edge with both endpoints
known, `adj.get(from)!.push(to); adj.get(to)!.push(from)`. -/
def buildAdj (nodes : List NetworkNode) (edges : List NetworkEdge) :
    List (String × List String) :=
  let nodeSet := nodes.map (·.key)
  let adj0 := nodes.foldl (fun m n => mset m n.key []) []
  edges.foldl (fun m e =>
    if nodeSet.contains e.«from» && nodeSet.contains e.«to» then
      mpush (mpush m e.«from» e.«to») e.«to» e.«from»
    else m) adj0

/-- Inner `for (const nb of adj.get(cur))` loop of the BFS: insert every
unvisited neighbour with depth `d+1` and parent `cur`, and push it on the
queue. Returns the updated `(res, q)`. -/
def visitNbs (cur : String) (d : Nat) :
    List String → List (String × InternalNodeInfo) → List String →
    List (String × InternalNodeInfo) × List String
  | [], res, q => (res, q)
  | nb :: rest, res, q =>
    if (mfind res nb).isSome then visitNbs cur d rest res q
    else visitNbs cur d rest (res ++ [(nb, ⟨d + 1, some cur⟩)]) (q ++ [nb])

/-- The BFS `while (q.length)` loop. The loop pops one queue element per
iteration and every push corresponds to a fresh `res` insertion with a key
drawn from the node set, so `nodes.length + 1` iterations always suffice;
`fuel` makes that bound explicit. A popped key absent from `res` cannot
occur (the code reads `res.get(cur)!`); that branch just drops the key. -/
def bfsAux (adj : List (String × List String)) (maxDepth : Nat) :
    Nat → List String → List (String × InternalNodeInfo) →
    List (String × InternalNodeInfo)
  | 0, _, res => res
  | _ + 1, [], res => res
  | fuel + 1, cur :: q, res =>
    match mfind res cur with
    | none => bfsAux adj maxDepth fuel q res
    | some curInfo =>
      if curInfo.depth ≥ maxDepth then bfsAux adj maxDepth fuel q res
      else
        let rq := visitNbs cur curInfo.depth ((mfind adj cur).getD []) res q
        bfsAux adj maxDepth fuel rq.2 rq.1

/-- `computeTreeLevels(nodes, edges, centerKey, maxDepth)`. -/
def computeTreeLevels (nodes : List NetworkNode) (edges : List NetworkEdge)
    (centerKey : String) (maxDepth : Nat) : List (String × InternalNodeInfo) :=
  let nodeSet := nodes.map (·.key)
  if nodeSet.contains centerKey then
    bfsAux (buildAdj nodes edges) maxDepth (nodes.length + 1)
      [centerKey] [(centerKey, ⟨0, none⟩)]
  else []

/-! ### The level invariant (spec §3 LevelInfo, §8) -/

/-- BFS invariant: the focus is mapped to depth 0 with no parent, and every
other entry carries a parent that is itself an entry one level shallower. -/
def LevelInv (centerKey : String) (res : List (String × InternalNodeInfo)) : Prop :=
  mfind res centerKey = some ⟨0, none⟩ ∧
  ∀ k info, mfind res k = some info →
    (k = centerKey ∧ info = ⟨0, none⟩) ∨
    (info.depth ≠ 0 ∧ ∃ p pinfo, info.parent = some p ∧
      mfind res p = some pinfo ∧ info.depth = pinfo.depth + 1)

theorem levelInv_visitNbs (centerKey cur : String) (d : Nat)
    (nbs : List String) (res : List (String × InternalNodeInfo)) (q : List String)
    (hinv : LevelInv centerKey res)
    (hcur : ∃ pi, mfind res cur = some pi ∧ pi.depth = d) :
    LevelInv centerKey (visitNbs cur d nbs res q).1 := by
  induction nbs generalizing res q with
  | nil => exact hinv
  | cons nb rest ih =>
    by_cases hv : (mfind res nb).isSome
    · simpa [visitNbs, hv] using ih res q hinv hcur
    · simp only [visitNbs, hv, if_false, Bool.false_eq_true]
      have hnone : mfind res nb = none := by
        cases h : mfind res nb with
        | none => rfl
        | some _ => rw [h] at hv; simp at hv
      obtain ⟨pi, hpi, hpid⟩ := hcur
      set res' := res ++ [(nb, ⟨d + 1, some cur⟩)] with hres'
      have hinv' : LevelInv centerKey res' := by
        constructor
        · exact mfind_append_of_isSome _ hinv.1
        · intro k info hk
          rcases mfind_append_single_cases hk with hold | ⟨_, hkeq, hveq⟩
          · rcases hinv.2 k info hold with hc | ⟨hd, p, pinfo, hp, hpm, hdep⟩
            · exact Or.inl hc
            · exact Or.inr ⟨hd, p, pinfo, hp, mfind_append_of_isSome _ hpm, hdep⟩
          · subst hkeq; subst hveq
            refine Or.inr ⟨by simp, cur, pi, by simp, mfind_append_of_isSome _ hpi, by simp [hpid]⟩
      exact ih res' (q ++ [nb]) hinv' ⟨pi, mfind_append_of_isSome _ hpi, hpid⟩

theorem levelInv_bfsAux (adj : List (String × List String)) (maxDepth : Nat)
    (centerKey : String) :
    ∀ (fuel : Nat) (q : List String) (res : List (String × InternalNodeInfo)),
      LevelInv centerKey res → LevelInv centerKey (bfsAux adj maxDepth fuel q res)
  | 0, _, _, hinv => hinv
  | _ + 1, [], _, hinv => hinv
  | fuel + 1, cur :: q, res, hinv => by
    simp only [bfsAux]
    cases hc : mfind res cur with
    | none => exact levelInv_bfsAux adj maxDepth centerKey fuel q res hinv
    | some curInfo =>
      by_cases hd : curInfo.depth ≥ maxDepth
      · simpa [hd] using levelInv_bfsAux adj maxDepth centerKey fuel q res hinv
      · simp only [hd, if_false, Bool.false_eq_true]
        exact levelInv_bfsAux adj maxDepth centerKey fuel _ _
          (levelInv_visitNbs centerKey cur curInfo.depth _ res q hinv
            ⟨curInfo, hc, rfl⟩)

theorem levelInv_computeTreeLevels (nodes : List NetworkNode)
    (edges : List NetworkEdge) (centerKey : String) (maxDepth : Nat)
    (h : centerKey ∈ nodes.map (·.key)) :
    LevelInv centerKey (computeTreeLevels nodes edges centerKey maxDepth) := by
  have hc : (nodes.map (·.key)).contains centerKey = true :=
    List.contains_iff_exists_mem_beq.2 ⟨centerKey, h, by simp⟩
  unfold computeTreeLevels
  simp only [hc, if_true]
  apply levelInv_bfsAux
  constructor
  · simp [mfind]
  · intro k info hk
    simp only [mfind] at hk
    by_cases hkc : centerKey = k
    · subst hkc
      simp at hk
      exact Or.inl ⟨rfl, hk.symm⟩
    · simp [hkc] at hk

/-- C7: for every node set, edge set, focus key present in the node set and
maxDepth, the `computeTreeLevels` mapping gives the focus depth 0 and no
parent; every other entry has a parent that is itself an entry one depth
shallower; and depth 0 occurs only for the focus. -/
theorem computeTreeLevels_level_invariant (nodes : List NetworkNode)
    (edges : List NetworkEdge) (centerKey : String) (maxDepth : Nat)
    (h : centerKey ∈ nodes.map (·.key)) :
    (mfind (computeTreeLevels nodes edges centerKey maxDepth) centerKey
        = some ⟨0, none⟩) ∧
    (∀ k info, mfind (computeTreeLevels nodes edges centerKey maxDepth) k
        = some info → k ≠ centerKey →
      ∃ p pinfo, info.parent = some p ∧
        mfind (computeTreeLevels nodes edges centerKey maxDepth) p = some pinfo ∧
        info.depth = pinfo.depth + 1) ∧
    (∀ k info, mfind (computeTreeLevels nodes edges centerKey maxDepth) k
        = some info → info.depth = 0 → k = centerKey) := by
  obtain ⟨h0, hrest⟩ := levelInv_computeTreeLevels nodes edges centerKey maxDepth h
  refine ⟨h0, ?_, ?_⟩
  · intro k info hk hne
    rcases hrest k info hk with ⟨hc, _⟩ | ⟨_, p, pinfo, hp, hpm, hd⟩
    · exact absurd hc hne
    · exact ⟨p, pinfo, hp, hpm, hd⟩
  · intro k info hk hd0
    rcases hrest k info hk with ⟨hc, _⟩ | ⟨hd, _⟩
    · exact hc
    · exact absurd hd0 hd

/-- Witness for C7 at a concrete graph: `r — a`, focus `r`, maxDepth 2. -/
theorem computeTreeLevels_level_invariant_witness :
    "r" ∈ ([⟨"r", false⟩, ⟨"a", false⟩] : List NetworkNode).map (·.key) ∧
    (mfind (computeTreeLevels [⟨"r", false⟩, ⟨"a", false⟩] [⟨"r", "a"⟩] "r" 2) "r"
        = some ⟨0, none⟩) :=
  ⟨by decide,
   (computeTreeLevels_level_invariant [⟨"r", false⟩, ⟨"a", false⟩] [⟨"r", "a"⟩]
      "r" 2 (by decide)).1⟩

/-! ## Radial Layout Calculator
`computeRadialLayout` (NetworkGraph.utils.ts, lines 88-151),
`pointOnRectPerimeter`, `rectOutwardNormal`, `computeRadialLayoutAdvanced`
and `computeRadialLayoutAdaptive` (the advanced-radial module appended to
ComponentsType.ts). -/

/-- Coordinates are rationals; `Math.cos`, `Math.sin`, `Math.atan2` and
`Math.PI` are abstracted into this parameter record, so layout theorems
hold for every interpretation of the transcendental functions. -/
structure TrigFns where
  cos : ℚ → ℚ
  sin : ℚ → ℚ
  atan2 : ℚ → ℚ → ℚ
  pi : ℚ

/-- `NodePos` (NetworkGraph.utils.ts). -/
structure NodePos where
  x : ℚ
  y : ℚ
deriving DecidableEq

/-- `clamp(n, min, max) = Math.max(min, Math.min(max, n))`. -/
def clamp (n mn mx : ℚ) : ℚ := max mn (min mx n)

/-- `degToRad(deg) = deg * Math.PI / 180`. -/
def degToRad (T : TrigFns) (deg : ℚ) : ℚ := deg * T.pi / 180

/-- `RING_U_OFFSET = 0.015`. -/
def RING_U_OFFSET : ℚ := 15 / 1000

/-- `Math.round` (JS rounds half away from zero upward: `floor(x + 1/2)`). -/
def jsRound (q : ℚ) : Int := ⌊q + 1 / 2⌋

/-- `byDepth[d]`: the keys of the nodes (in node-list order) whose
`LevelInfo` entry has depth `d`. -/
def byDepth (nodes : List NetworkNode) (levels : List (String × InternalNodeInfo))
    (d : Nat) : List String :=
  nodes.filterMap (fun n => match mfind levels n.key with
    | some info => if info.depth = d then some n.key else none
    | none => none)

/-- `childrenByParent`: children grouped by `LevelInfo.parent`, in
`levels.entries()` iteration order.  The guard `if (!info.parent) continue`
skips a missing parent and, by JS falsiness, an empty-string parent key. -/
def childrenByParent (levels : List (String × InternalNodeInfo)) :
    List (String × List String) :=
  levels.foldl (fun m e =>
    match e.2.parent with
    | none => m
    | some par =>
      if par = "" then m
      else if (mfind m par).isSome then mpush m par e.1
      else mpush (mset m par []) par e.1) []

/-- Indexed fold mirroring `for (let i = 0; i < l.length; i++)`. -/
def foldIdx {α σ : Type} (f : σ → Nat → α → σ) : σ → Nat → List α → σ
  | s, _, [] => s
  | s, i, a :: rest => foldIdx f (f s i a) (i + 1) rest

/-- Parameters shared by all layout entry points. `radii` models the
`Record<1|...|7, number>` table as a total function (only keys 1..7 are
ever read). -/
structure RadialParams where
  nodes : List NetworkNode
  edges : List NetworkEdge
  centerKey : String
  maxDepth : Nat
  radii : Nat → ℚ
  childSpreadDeg : ℚ

/-- `computeRadialLayout` (simple circular mode). `siblings.indexOf(key)`
is modelled with `List.findIdx`; the key is always a member of its own
sibling list, so the out-of-range value is never produced.  The guard
`if (!info?.parent) continue` skips a missing parent and, by JS falsiness,
an empty-string parent key. -/
def computeRadialLayout (T : TrigFns) (p : RadialParams) : List (String × NodePos) :=
  let levels := computeTreeLevels p.nodes p.edges p.centerKey p.maxDepth
  let positions : List (String × NodePos) := mset [] p.centerKey ⟨0, 0⟩
  let lvl1 := byDepth p.nodes levels 1
  let positions := foldIdx (fun ps i k =>
      let a := ((i : ℚ) / ((max 1 lvl1.length : Nat) : ℚ)) * T.pi * 2
      mset ps k ⟨T.cos a * p.radii 1, T.sin a * p.radii 1⟩) positions 0 lvl1
  let cbp := childrenByParent levels
  [2, 3].foldl (fun ps depth =>
    if depth > p.maxDepth then ps
    else (byDepth p.nodes levels depth).foldl (fun ps key =>
      match mfind levels key with
      | none => ps
      | some info =>
        match info.parent with
        | none => ps
        | some parentKey =>
          if parentKey = "" then ps
          else
          let parentPos := (mfind ps parentKey).getD ⟨0, 0⟩
          let parentAngle := T.atan2 parentPos.y parentPos.x
          let siblings := (mfind cbp parentKey).getD [key]
          let idx := siblings.findIdx (· == key)
          let spread := degToRad T p.childSpreadDeg
          let t : ℚ := if siblings.length = 1 then 0
                       else (idx : ℚ) / (((siblings.length - 1 : Nat)) : ℚ)
          let angle := parentAngle - spread / 2 + t * spread
          mset ps key ⟨parentPos.x + T.cos angle * p.radii depth,
                       parentPos.y + T.sin angle * p.radii depth⟩) ps) positions

/-- `pointOnRectPerimeter(u, halfW, halfH)`: walk of the rectangle
perimeter starting on the right edge at `(halfW, -halfH)` (the code
comment says "(halfW, 0)" but the formula `y = -halfH + d` starts at the
top-right corner). -/
def pointOnRectPerimeter (u halfW halfH : ℚ) : NodePos :=
  let W := halfW * 2
  let H := halfH * 2
  let perim := 2 * (W + H)
  let d := (u - (⌊u⌋ : ℚ)) * perim
  if d ≤ H then ⟨halfW, -halfH + d⟩
  else
    let d₂ := d - H
    if d₂ ≤ W then ⟨halfW - d₂, halfH⟩
    else
      let d₃ := d₂ - W
      if d₃ ≤ H then ⟨-halfW, halfH - d₃⟩
      else ⟨-halfW + (d₃ - H), -halfH⟩

/-- Result record of `rectOutwardNormal`. -/
structure RectNormal where
  nx : ℚ
  ny : ℚ
  tx : ℚ
  ty : ℚ

/-- `rectOutwardNormal(p, halfW, halfH)`. -/
def rectOutwardNormal (p : NodePos) (halfW halfH : ℚ) : RectNormal :=
  let dx := halfW - |p.x|
  let dy := halfH - |p.y|
  if dx < dy then ⟨if p.x ≥ 0 then 1 else -1, 0, 0, 1⟩
  else ⟨0, if p.y ≥ 0 then 1 else -1, 1, 0⟩

/-- Lexicographic comparison of character lists by code point. -/
def charsLe : List Char → List Char → Bool
  | [], _ => true
  | _ :: _, [] => false
  | a :: as, b :: bs =>
    if a.val < b.val then true
    else if b.val < a.val then false
    else charsLe as bs

/-- Code-point string order (agrees with `localeCompare` on the
single-case ASCII keys the examples use). -/
def strLe (a b : String) : Bool := charsLe a.data b.data

/-- Insertion into a sorted list; `sortKeys` models
`arr.sort((a, b) => a.localeCompare(b))` as a stable sort by `strLe`. -/
def insertSorted (a : String) : List String → List String
  | [] => [a]
  | b :: t => if strLe a b then a :: b :: t else b :: insertSorted a t

/-- Stable sort of a key list. -/
def sortKeys (l : List String) : List String := l.foldr insertSorted []

/-- `nodeBox` parameter `{ w, h, pad? }`. -/
structure NodeBox where
  w : ℚ
  h : ℚ
  pad : Option ℚ := none

/-- The `"circle" | "rectRings"` tag of `level1Layout.type`. -/
inductive L1Type
  | circle
  | rectRings
deriving DecidableEq

/-- `level1Layout` parameter. -/
structure Level1Layout where
  type : L1Type
  halfW : Option ℚ := none
  halfH : Option ℚ := none
  outerRatio : Option ℚ := none
  innerScale : Option ℚ := none

/-- Extra parameters of `computeRadialLayoutAdvanced`. -/
structure AdvancedParams extends RadialParams where
  nodeBox : Option NodeBox := none
  level1Layout : Option Level1Layout := none
  isExpandable : Option (NetworkNode → Bool) := none

/-- The `for (const k of nonExpandableLvl1)` loop filling the outer ring
up to `outerCount` (`break` once the quota is reached). -/
def fillOuter (outerCount : Int) : List String → List String → List String
  | acc, [] => acc
  | acc, k :: rest =>
    if (acc.length : Int) ≥ outerCount then acc
    else fillOuter outerCount (acc ++ [k]) rest

/-- Body of the `Depth >= 2` loop of `computeRadialLayoutAdvanced` for a
single `key` (the loop iterates over `[6, 7]`, marked `//changed` in the
source). The guard `if (!info?.parent) continue` skips a missing parent
and, by JS falsiness, an empty-string parent key.  A missing parent
position falls back to the origin
(`positions.get(parentKey) || { x: 0, y: 0 }`). -/
def placeChildAdv (T : TrigFns) (p : AdvancedParams)
    (nodeByKey : List (String × NetworkNode))
    (levels : List (String × InternalNodeInfo))
    (cbp : List (String × List String)) (depth : Nat)
    (ps : List (String × NodePos)) (key : String) : List (String × NodePos) :=
  let isExpandable := p.isExpandable.getD (fun _ => false)
  match mfind levels key with
  | none => ps
  | some info =>
    match info.parent with
    | none => ps
    | some parentKey =>
      if parentKey = "" then ps
      else
      let parentPos := (mfind ps parentKey).getD ⟨0, 0⟩
      let spread := degToRad T p.childSpreadDeg
      let siblings := (mfind cbp parentKey).getD [key]
      let idx := siblings.findIdx (· == key)
      let t : ℚ := if siblings.length = 1 then 0
                   else (idx : ℚ) / (((siblings.length - 1 : Nat)) : ℚ)
      let offset := t - 1/2
      let isRR : Bool := match p.level1Layout with
        | some l1' => match l1'.type with
          | L1Type.rectRings => true
          | L1Type.circle => false
        | none => false
      if isRR then
        let halfW := max 120 ((p.level1Layout.bind (·.halfW)).getD (p.radii 1))
        let halfH := max 120 ((p.level1Layout.bind (·.halfH)).getD (p.radii 1))
        let rn := rectOutwardNormal parentPos halfW halfH
        let boxW := (p.nodeBox.map (·.w)).getD 120
        let boxH := (p.nodeBox.map (·.h)).getD 60
        let pad := (p.nodeBox.bind (·.pad)).getD 10
        let minSep := max boxW boxH + pad
        let parentIsExpandable := match mfind nodeByKey parentKey with
          | some n => isExpandable n
          | none => false
        let outwardBase := max (p.radii depth) (minSep * (11/10))
        if parentIsExpandable then
          let baseAngle := T.atan2 rn.ny rn.nx
          let spread₂ := min (degToRad T 140)
            (max (degToRad T p.childSpreadDeg)
              ((((siblings.length - 1 : Nat)) : ℚ) * (minSep / outwardBase)))
          let angle := baseAngle - spread₂ / 2 + t * spread₂
          mset ps key ⟨parentPos.x + T.cos angle * outwardBase,
                       parentPos.y + T.sin angle * outwardBase⟩
        else
          let tangentGap := minSep
          mset ps key ⟨parentPos.x + rn.nx * outwardBase + rn.tx * offset * tangentGap,
                       parentPos.y + rn.ny * outwardBase + rn.ty * offset * tangentGap⟩
      else
        let parentAngle := T.atan2 parentPos.y parentPos.x
        let angle := parentAngle - spread / 2 + t * spread
        mset ps key ⟨parentPos.x + T.cos angle * p.radii depth,
                     parentPos.y + T.sin angle * p.radii depth⟩

/-- `computeRadialLayoutAdvanced`. -/
def computeRadialLayoutAdvanced (T : TrigFns) (p : AdvancedParams) :
    List (String × NodePos) :=
  let isExpandable := p.isExpandable.getD (fun _ => false)
  let nodeByKey := p.nodes.foldl (fun m n => mset m n.key n) []
  let levels := computeTreeLevels p.nodes p.edges p.centerKey p.maxDepth
  let positions : List (String × NodePos) := mset [] p.centerKey ⟨0, 0⟩
  let lvl1 := sortKeys (byDepth p.nodes levels 1)
  let expandableLvl1 := lvl1.filter (fun k => match mfind nodeByKey k with
    | some n => isExpandable n
    | none => false)
  let nonExpandableLvl1 := lvl1.filter (fun k => match mfind nodeByKey k with
    | some n => !isExpandable n
    | none => true)
  let l1type := match p.level1Layout with
    | some l1 => l1.type
    | none => L1Type.circle
  let positions :=
    if l1type = L1Type.rectRings then
      let halfW := max 120 ((p.level1Layout.bind (·.halfW)).getD (p.radii 1))
      let halfH := max 120 ((p.level1Layout.bind (·.halfH)).getD (p.radii 1))
      let outerRatio := clamp ((p.level1Layout.bind (·.outerRatio)).getD (55/100))
        (5/100) (95/100)
      let innerScale := clamp ((p.level1Layout.bind (·.innerScale)).getD (72/100))
        (2/10) (98/100)
      let outerCount := max 1 (jsRound ((lvl1.length : ℚ) * outerRatio))
      let outerKeys := fillOuter outerCount expandableLvl1 nonExpandableLvl1
      let innerKeys := lvl1.filter (fun k => !(outerKeys.contains k))
      let positions := foldIdx (fun ps i k =>
          let uBase := (i : ℚ) / ((max 1 outerKeys.length : Nat) : ℚ)
          let u := uBase + RING_U_OFFSET * 1
          mset ps k (pointOnRectPerimeter u halfW halfH)) positions 0 outerKeys
      foldIdx (fun ps i k =>
          let uBase := (i : ℚ) / ((max 1 innerKeys.length : Nat) : ℚ)
          let u := uBase + RING_U_OFFSET * 0
          let pt := pointOnRectPerimeter u halfW halfH
          mset ps k ⟨pt.x * innerScale, pt.y * innerScale⟩) positions 0 innerKeys
    else
      foldIdx (fun ps i k =>
          let a := ((i : ℚ) / ((max 1 lvl1.length : Nat) : ℚ)) * T.pi * 2
          mset ps k ⟨T.cos a * p.radii 1, T.sin a * p.radii 1⟩) positions 0 lvl1
  let cbp := (childrenByParent levels).map (fun e => (e.1, sortKeys e.2))
  [6, 7].foldl (fun ps depth =>
    if depth > p.maxDepth then ps
    else (byDepth p.nodes levels depth).foldl
      (placeChildAdv T p nodeByKey levels cbp depth) ps) positions

/-- Extra parameter of `computeRadialLayoutAdaptive`. -/
structure AdaptiveParams extends AdvancedParams where
  rectRingsMinLvl1 : Option Nat := none

/-- `computeRadialLayoutAdaptive`: count level-1 nodes via
`computeTreeLevels(nodes, edges, centerKey, 1)`; below the threshold
(default 80) dispatch to the simple layout, otherwise to the advanced
layout. -/
def computeRadialLayoutAdaptive (T : TrigFns) (p : AdaptiveParams) :
    List (String × NodePos) :=
  let thr := p.rectRingsMinLvl1.getD 80
  let levels := computeTreeLevels p.nodes p.edges p.centerKey 1
  let lvl1Count := (levels.filter (fun e => e.2.depth == 1)).length
  if lvl1Count < thr then computeRadialLayout T p.toRadialParams
  else computeRadialLayoutAdvanced T p.toAdvancedParams

/-! ### Claims C1 and C4 about the layout calculators -/

/-- A diagonal interpretation of the transcendental functions, used to
instantiate concrete layout computations (key-membership facts do not
depend on it). -/
def T0 : TrigFns := ⟨fun _ => 0, fun _ => 0, fun _ _ => 0, 0⟩

/-- Chain graph `r — n1 — n2 — n3 — n4 — n5 — n6`. -/
def chainNodes : List NetworkNode :=
  [⟨"r", false⟩, ⟨"n1", false⟩, ⟨"n2", false⟩, ⟨"n3", false⟩,
   ⟨"n4", false⟩, ⟨"n5", false⟩, ⟨"n6", false⟩]

/-- Edges of the chain graph. -/
def chainEdges : List NetworkEdge :=
  [⟨"r", "n1"⟩, ⟨"n1", "n2"⟩, ⟨"n2", "n3"⟩, ⟨"n3", "n4"⟩,
   ⟨"n4", "n5"⟩, ⟨"n5", "n6"⟩]

/-- Adaptive-layout parameters: chain graph, focus `r`, maxDepth 4,
defaults elsewhere (one level-1 node, so the simple mode is chosen). -/
def c1Params : AdaptiveParams :=
  { nodes := chainNodes, edges := chainEdges, centerKey := "r", maxDepth := 4,
    radii := fun _ => 100, childSpreadDeg := 80 }

/-- C1: on the chain graph with maxDepth 4, `computeTreeLevels` assigns
`n4` depth 4, yet `computeRadialLayoutAdaptive` (simple mode, whose
depth loop only covers depths 2 and 3) returns no position for `n4` —
although the focus is at the origin as promised. This contradicts the
contract that every node with a `LevelInfo` entry receives a position. -/
theorem adaptive_layout_drops_deep_nodes :
    mfind (computeTreeLevels chainNodes chainEdges "r" 4) "n4"
      = some ⟨4, some "n3"⟩ ∧
    mfind (computeRadialLayoutAdaptive T0 c1Params) "n4" = none ∧
    mfind (computeRadialLayoutAdaptive T0 c1Params) "r" = some ⟨0, 0⟩ := by
  refine ⟨by decide, by decide, by decide⟩

theorem isSome_mfind_mset {K V : Type} [DecidableEq K] {m : List (K × V)} {k : K}
    (k' : K) (v : V) (h : (mfind m k).isSome) :
    (mfind (mset m k' v) k).isSome := by
  by_cases hk : k = k'
  · subst hk; simp [mfind_mset_self]
  · rwa [mfind_mset_ne m v hk]

theorem placeChildAdv_isSome_mono (T : TrigFns) (p : AdvancedParams)
    (nodeByKey : List (String × NetworkNode))
    (levels : List (String × InternalNodeInfo))
    (cbp : List (String × List String)) (depth : Nat)
    (ps : List (String × NodePos)) (key k : String)
    (h : (mfind ps k).isSome) :
    (mfind (placeChildAdv T p nodeByKey levels cbp depth ps key) k).isSome := by
  cases hl : mfind levels key with
  | none => simpa only [placeChildAdv, hl] using h
  | some info =>
    cases hp : info.parent with
    | none => simpa only [placeChildAdv, hl, hp] using h
    | some parentKey =>
      simp only [placeChildAdv, hl, hp]
      split
      · exact h
      · split
        · split
          · exact isSome_mfind_mset _ _ h
          · exact isSome_mfind_mset _ _ h
        · exact isSome_mfind_mset _ _ h

theorem placeChildAdv_isSome_self (T : TrigFns) (p : AdvancedParams)
    (nodeByKey : List (String × NetworkNode))
    (levels : List (String × InternalNodeInfo))
    (cbp : List (String × List String)) (depth : Nat)
    (ps : List (String × NodePos)) (key : String)
    (info : InternalNodeInfo) (par : String)
    (hlev : mfind levels key = some info) (hpar : info.parent = some par)
    (hpar0 : par ≠ "") :
    (mfind (placeChildAdv T p nodeByKey levels cbp depth ps key) key).isSome := by
  simp only [placeChildAdv, hlev, hpar, if_neg hpar0]
  split
  · split
    · simp [mfind_mset_self]
    · simp [mfind_mset_self]
  · simp [mfind_mset_self]

theorem foldl_mfind_isSome_mono {σ : Type} [DecidableEq σ]
    (f : List (σ × NodePos) → String → List (σ × NodePos))
    (hmono : ∀ ps key k, (mfind ps k).isSome → (mfind (f ps key) k).isSome)
    (l : List String) (ps : List (σ × NodePos)) (k : σ)
    (h : (mfind ps k).isSome) : (mfind (l.foldl f ps) k).isSome := by
  induction l generalizing ps with
  | nil => exact h
  | cons a rest ih => exact ih (f ps a) (hmono ps a k h)

theorem foldl_mfind_isSome_self
    (f : List (String × NodePos) → String → List (String × NodePos))
    (key : String)
    (hmono : ∀ ps key' k, (mfind ps k).isSome → (mfind (f ps key') k).isSome)
    (hself : ∀ ps, (mfind (f ps key) key).isSome)
    (l : List String) (ps : List (String × NodePos))
    (hmem : key ∈ l) : (mfind (l.foldl f ps) key).isSome := by
  induction l generalizing ps with
  | nil => cases hmem
  | cons a rest ih =>
    rcases List.mem_cons.1 hmem with h | h
    · subst h
      exact foldl_mfind_isSome_mono f hmono rest (f ps key) key (hself ps)
    · exact ih (f ps a) h

theorem mem_byDepth {nodes : List NetworkNode}
    {levels : List (String × InternalNodeInfo)} {key : String}
    {info : InternalNodeInfo} {d : Nat}
    (hmem : key ∈ nodes.map (·.key))
    (hlev : mfind levels key = some info) (hd : info.depth = d) :
    key ∈ byDepth nodes levels d := by
  obtain ⟨n, hn, hkey⟩ := List.mem_map.1 hmem
  refine List.mem_filterMap.2 ⟨n, hn, ?_⟩
  rw [hkey, hlev]
  simp [hd]

/-- C4 amended: in the advanced layout a node at a loop depth (6 or 7,
within the depth bound) whose parent pointer is a nonempty key is always
placed — even when its parent has no position (the code substitutes the
origin for the missing parent position instead of skipping the child);
only a missing or empty-string parent key is skipped, by the JS-falsy
guard `if (!info?.parent) continue`. -/
theorem advanced_layout_places_every_loop_depth_child (T : TrigFns)
    (p : AdvancedParams) (key : String) (info : InternalNodeInfo) (par : String)
    (hmem : key ∈ p.nodes.map (·.key))
    (hlev : mfind (computeTreeLevels p.nodes p.edges p.centerKey p.maxDepth) key
      = some info)
    (hpar : info.parent = some par)
    (hpar0 : par ≠ "")
    (hdep : info.depth = 6 ∨ info.depth = 7)
    (hbound : info.depth ≤ p.maxDepth) :
    (mfind (computeRadialLayoutAdvanced T p) key).isSome := by
  unfold computeRadialLayoutAdvanced
  simp only [List.foldl_cons, List.foldl_nil]
  set nodeByKey := p.nodes.foldl (fun m n => mset m n.key n) [] with hnbk
  set levels := computeTreeLevels p.nodes p.edges p.centerKey p.maxDepth with hlevels
  set cbp := (childrenByParent levels).map (fun e => (e.1, sortKeys e.2)) with hcbp
  have hmono := placeChildAdv_isSome_mono T p nodeByKey levels cbp
  rcases hdep with hd6 | hd7
  · -- the node is placed by the depth-6 pass and survives the depth-7 pass
    rw [hd6] at hbound
    have h6 : ¬(6 > p.maxDepth) := by omega
    simp only [h6, if_false]
    have hplaced : ∀ ps, (mfind ((byDepth p.nodes levels 6).foldl
        (placeChildAdv T p nodeByKey levels cbp 6) ps) key).isSome := by
      intro ps
      exact foldl_mfind_isSome_self _ key (hmono 6)
        (fun ps' => placeChildAdv_isSome_self T p nodeByKey levels cbp 6 ps' key
          info par hlev hpar hpar0)
        _ ps (mem_byDepth hmem hlev hd6)
    by_cases h7 : 7 > p.maxDepth
    · simp only [h7, if_true]
      exact hplaced _
    · simp only [h7, if_false]
      exact foldl_mfind_isSome_mono _ (hmono 7) _ _ key (hplaced _)
  · -- the node is placed by the depth-7 pass
    rw [hd7] at hbound
    have h6 : ¬(6 > p.maxDepth) := by omega
    have h7 : ¬(7 > p.maxDepth) := by omega
    simp only [h6, h7, if_false]
    exact foldl_mfind_isSome_self _ key (hmono 7)
      (fun ps' => placeChildAdv_isSome_self T p nodeByKey levels cbp 7 ps' key
        info par hlev hpar hpar0)
      _ _ (mem_byDepth hmem hlev hd7)

/-- Advanced-layout parameters: chain graph, focus `r`, maxDepth 6,
defaults elsewhere. -/
def c4Params : AdvancedParams :=
  { nodes := chainNodes, edges := chainEdges, centerKey := "r", maxDepth := 6,
    radii := fun _ => 100, childSpreadDeg := 80 }

/-- C4 counterexample: on the chain graph with maxDepth 6, the depth-6
node `n6` has parent `n5`, and `n5` has no entry in the position map
returned by `computeRadialLayoutAdvanced` (the loop never places depths
2-5); yet `n6` IS present in the returned map — the child of a
position-less parent is placed, not skipped. -/
theorem advanced_layout_places_child_of_unplaced_parent :
    mfind (computeTreeLevels chainNodes chainEdges "r" 6) "n6"
      = some ⟨6, some "n5"⟩ ∧
    mfind (computeRadialLayoutAdvanced T0 c4Params) "n5" = none ∧
    (mfind (computeRadialLayoutAdvanced T0 c4Params) "n6").isSome = true := by
  refine ⟨by decide, by decide, by decide⟩

/-- Witness for the amended C4 theorem at the chain graph. -/
theorem advanced_layout_places_every_loop_depth_child_witness :
    ("n6" ∈ c4Params.nodes.map (·.key)) ∧
    (mfind (computeRadialLayoutAdvanced T0 c4Params) "n6").isSome :=
  ⟨by decide,
   advanced_layout_places_every_loop_depth_child T0 c4Params "n6"
     ⟨6, some "n5"⟩ "n5" (by decide) (by decide) rfl (by decide) (Or.inl rfl)
     (by decide)⟩

/-! ### Claim C5: the rectangular-ring scenario -/

/-- Membership of a point on the rectangle perimeter of half-extents
`(halfW, halfH)`. -/
def onRectPerimeter (p : NodePos) (halfW halfH : ℚ) : Prop :=
  ((p.x = halfW ∨ p.x = -halfW) ∧ -halfH ≤ p.y ∧ p.y ≤ halfH) ∨
  ((p.y = halfH ∨ p.y = -halfH) ∧ -halfW ≤ p.x ∧ p.x ≤ halfW)

/-- Four expandable level-1 nodes around a focus `r`. -/
def c5Nodes : List NetworkNode :=
  [⟨"a", true⟩, ⟨"b", true⟩, ⟨"c", true⟩, ⟨"d", true⟩, ⟨"r", false⟩]

/-- Star edges for the rect-ring scenario. -/
def c5Edges : List NetworkEdge :=
  [⟨"r", "a"⟩, ⟨"r", "b"⟩, ⟨"r", "c"⟩, ⟨"r", "d"⟩]

/-- Advanced-layout parameters of the scenario: rect-ring level-1 layout
with `halfW = halfH = 200`, every level-1 node expandable (so all four
land on the outer ring). -/
def c5Params : AdvancedParams :=
  { nodes := c5Nodes, edges := c5Edges, centerKey := "r", maxDepth := 1,
    radii := fun _ => 100, childSpreadDeg := 80,
    level1Layout := some ⟨L1Type.rectRings, some 200, some 200, none, none⟩,
    isExpandable := some (fun n => n.expandable) }

/-- Level map of the scenario. -/
def c5L : List (String × InternalNodeInfo) :=
  [("r", ⟨0, none⟩), ("a", ⟨1, some "r"⟩), ("b", ⟨1, some "r"⟩),
   ("c", ⟨1, some "r"⟩), ("d", ⟨1, some "r"⟩)]

set_option maxHeartbeats 3000000 in
theorem c5_layout_eq : computeRadialLayoutAdvanced T0 c5Params =
    [("r", ⟨0, 0⟩), ("a", ⟨200, -176⟩), ("b", ⟨176, 200⟩),
     ("c", ⟨-200, 176⟩), ("d", ⟨-176, -200⟩)] := by
  have hlev : computeTreeLevels c5Nodes c5Edges "r" 1 = c5L := by decide
  have hl1 : sortKeys (byDepth c5Nodes c5L 1) = ["a", "b", "c", "d"] := by decide
  have hnbk : (c5Nodes.foldl (fun m n => mset m n.key n) []) =
      [("a", ⟨"a", true⟩), ("b", ⟨"b", true⟩), ("c", ⟨"c", true⟩),
       ("d", ⟨"d", true⟩), ("r", ⟨"r", false⟩)] := by decide
  have hf1 : Int.fract ((3:ℚ)/200) = 3/200 := Int.fract_eq_self.2 (by norm_num)
  have hf2 : Int.fract ((53:ℚ)/200) = 53/200 := Int.fract_eq_self.2 (by norm_num)
  have hf3 : Int.fract ((103:ℚ)/200) = 103/200 := Int.fract_eq_self.2 (by norm_num)
  have hf4 : Int.fract ((153:ℚ)/200) = 153/200 := Int.fract_eq_self.2 (by norm_num)
  simp only [computeRadialLayoutAdvanced, c5Params, hlev, hl1, hnbk]
  simp +decide only [byDepth, List.filterMap, mfind, List.foldl, foldIdx, mset,
    Option.bind, Option.getD, Option.map, fillOuter, List.filter, List.contains,
    List.elem, childrenByParent, mpush, jsRound, clamp, c5L]
  norm_num [pointOnRectPerimeter, RING_U_OFFSET, mfind, mset, hf1, hf2, hf3, hf4,
    max_def, min_def]

/-- C5 counterexample: the perimeter walk at `u = 0` starts at the
top-right corner `(halfW, -halfH)`, not at the right-edge midpoint
`(halfW, 0)` as the claim states. -/
theorem rect_ring_start_not_right_edge_midpoint :
    pointOnRectPerimeter 0 200 200 = ⟨200, -200⟩ ∧
    pointOnRectPerimeter 0 200 200 ≠ ⟨200, 0⟩ := by
  constructor <;> norm_num [pointOnRectPerimeter, NodePos.mk.injEq]

/-- C5 amended: with `halfW = halfH = 200` and 4 outer-ring (expandable)
level-1 nodes, the computed positions are exactly the perimeter walk at
`u = 0, 0.25, 0.5, 0.75` plus the fixed ring offset `0.015`, each lying
exactly on the rectangle perimeter — but the walk's `u = 0` point is the
top-right corner `(halfW, -halfH)`, not the right-edge midpoint. -/
theorem rect_ring_scenario_positions :
    (mfind (computeRadialLayoutAdvanced T0 c5Params) "a" = some ⟨200, -176⟩ ∧
     mfind (computeRadialLayoutAdvanced T0 c5Params) "b" = some ⟨176, 200⟩ ∧
     mfind (computeRadialLayoutAdvanced T0 c5Params) "c" = some ⟨-200, 176⟩ ∧
     mfind (computeRadialLayoutAdvanced T0 c5Params) "d" = some ⟨-176, -200⟩) ∧
    (pointOnRectPerimeter ((0:ℚ)/4 + RING_U_OFFSET) 200 200 = ⟨200, -176⟩ ∧
     pointOnRectPerimeter ((1:ℚ)/4 + RING_U_OFFSET) 200 200 = ⟨176, 200⟩ ∧
     pointOnRectPerimeter ((2:ℚ)/4 + RING_U_OFFSET) 200 200 = ⟨-200, 176⟩ ∧
     pointOnRectPerimeter ((3:ℚ)/4 + RING_U_OFFSET) 200 200 = ⟨-176, -200⟩) ∧
    (onRectPerimeter ⟨200, -176⟩ 200 200 ∧ onRectPerimeter ⟨176, 200⟩ 200 200 ∧
     onRectPerimeter ⟨-200, 176⟩ 200 200 ∧ onRectPerimeter ⟨-176, -200⟩ 200 200) ∧
    pointOnRectPerimeter 0 200 200 = ⟨200, -200⟩ := by
  have hf1 : Int.fract ((3:ℚ)/200) = 3/200 := Int.fract_eq_self.2 (by norm_num)
  have hf2 : Int.fract ((53:ℚ)/200) = 53/200 := Int.fract_eq_self.2 (by norm_num)
  have hf3 : Int.fract ((103:ℚ)/200) = 103/200 := Int.fract_eq_self.2 (by norm_num)
  have hf4 : Int.fract ((153:ℚ)/200) = 153/200 := Int.fract_eq_self.2 (by norm_num)
  refine ⟨⟨?_, ?_, ?_, ?_⟩, ⟨?_, ?_, ?_, ?_⟩, ⟨?_, ?_, ?_, ?_⟩, ?_⟩ <;>
    (try rw [c5_layout_eq]) <;>
    (try simp +decide only [mfind]) <;>
    (try norm_num [pointOnRectPerimeter, RING_U_OFFSET, onRectPerimeter,
      hf1, hf2, hf3, hf4])

/-! ## Viewport Fit Calculator
`computeGraphBounds` (NetworkGraph.utils.ts, lines 158-188) and the pure
core of `zoomToFit` (NetworkGraph.tsx). The `Infinity` / `-Infinity`
accumulator initial values are modelled as `none`; `Number.isFinite`
becomes `Option.isSome`. -/

/-- `NODE_BOX_WIDTH` (Constants.ts). -/
def NODE_BOX_WIDTH : ℚ := 90

/-- `NODE_BOX_HEIGHT` (Constants.ts). -/
def NODE_BOX_HEIGHT : ℚ := 50

/-- `ICON_TOP` (Constants.ts). -/
def ICON_TOP : ℚ := 4

/-- `ICON_SIZE` (Constants.ts). -/
def ICON_SIZE : ℚ := 24

/-- `iconCenterYOffset` (Constants.ts). -/
def iconCenterYOffset : ℚ := -(NODE_BOX_HEIGHT / 2) + ICON_TOP + ICON_SIZE / 2

/-- `getNodeIconCenter` (NetworkGraph.utils.ts). -/
def getNodeIconCenter (p : NodePos) : NodePos := ⟨p.x, p.y + iconCenterYOffset⟩

/-- Finite bounding box. -/
structure Bounds where
  minX : ℚ
  minY : ℚ
  maxX : ℚ
  maxY : ℚ
deriving DecidableEq

/-- Accumulator of `computeGraphBounds`; `none` stands for the initial
`Infinity` / `-Infinity`. -/
structure BoundsAcc where
  minX : Option ℚ := none
  minY : Option ℚ := none
  maxX : Option ℚ := none
  maxY : Option ℚ := none

/-- `Math.min` against a possibly-infinite accumulator. -/
def omin (o : Option ℚ) (v : ℚ) : Option ℚ :=
  some (match o with | none => v | some m => min m v)

/-- `Math.max` against a possibly-infinite accumulator. -/
def omax (o : Option ℚ) (v : ℚ) : Option ℚ :=
  some (match o with | none => v | some m => max m v)

/-- The `grow(x, y)` closure of `computeGraphBounds`. -/
def growB (b : BoundsAcc) (x y : ℚ) : BoundsAcc :=
  ⟨omin b.minX x, omin b.minY y, omax b.maxX x, omax b.maxY y⟩

/-- `computeGraphBounds(positions)`: include the node boxes, then the
edge anchor (icon-center) points; return `null` when no finite box
resulted (empty position map). -/
def computeGraphBounds (positions : List (String × NodePos)) : Option Bounds :=
  let acc : BoundsAcc := {}
  let acc := positions.foldl (fun b e =>
    growB (growB b (e.2.x - NODE_BOX_WIDTH / 2) (e.2.y - NODE_BOX_HEIGHT / 2))
      (e.2.x + NODE_BOX_WIDTH / 2) (e.2.y + NODE_BOX_HEIGHT / 2)) acc
  let acc := positions.foldl (fun b e =>
    let c := getNodeIconCenter e.2
    growB b c.x c.y) acc
  match acc.minX, acc.minY, acc.maxX, acc.maxY with
  | some minX, some minY, some maxX, some maxY => some ⟨minX, minY, maxX, maxY⟩
  | _, _, _, _ => none

/-- `d3.ZoomTransform`: scale `k` and translation `(tx, ty)`. -/
structure ViewTransform where
  k : ℚ
  tx : ℚ
  ty : ℚ
deriving DecidableEq

/-- Pure core of `zoomToFit(posMap)` (NetworkGraph.tsx): `none` models
every early `return` (no transform computed or applied); `some t` models
`applyTransform(t, 400)` with
`t = zoomIdentity.translate(mw/2, mh/2).scale(k).translate(-cx, -cy)`. -/
def zoomToFit (posMap : List (String × NodePos))
    (measuredWidth measuredHeight minZoom maxZoom : ℚ)
    (didInitialFit : Bool) : Option ViewTransform :=
  if posMap.length = 0 then none
  else if measuredWidth = 0 ∨ measuredHeight = 0 then none
  else
    match computeGraphBounds posMap with
    | none => none
    | some b =>
      let padding : ℚ := 5
      let minX := b.minX - padding
      let minY := b.minY - padding
      let maxX := b.maxX + padding
      let maxY := b.maxY + padding
      let contentW := max 1 (maxX - minX)
      let contentH := max 1 (maxY - minY)
      let rawK := min (measuredWidth / contentW) (measuredHeight / contentH)
      let k := clamp rawK minZoom (if didInitialFit then maxZoom else 1)
      let cx := (minX + maxX) / 2
      let cy := (minY + maxY) / 2
      some ⟨k, measuredWidth / 2 - k * cx, measuredHeight / 2 - k * cy⟩

/-- C6 counterexample: on the empty position map `zoomToFit` returns
early — no transform at all is produced, in particular no sentinel
transform derived from the viewport dimensions. -/
theorem zoomToFit_empty_returns_none :
    zoomToFit [] 800 600 (1/4) 3 false = none := rfl

/-- C6 amended: on the empty position map `computeGraphBounds` returns no
bounds and `zoomToFit` is a no-op for every viewport size, zoom bound and
initial-fit flag: it returns early without computing any transform, and
no error is raised (the model is total). -/
theorem empty_positions_no_bounds_no_fit (mw mh mz Mz : ℚ) (flag : Bool) :
    computeGraphBounds [] = none ∧ zoomToFit [] mw mh mz Mz flag = none :=
  ⟨rfl, rfl⟩

/-! ## Expansion State Machine
`nodeConnectionsMap`, `visibleNodes`, `visibleEdges` and `onExpandClick`
(NetworkGraph.tsx). JS `Set`s are duplicate-free lists in insertion
order. -/

/-- `map.get(k)?.add(v)`: add `v` to the set bound to `k`; a no-op when
`k` is absent (optional chaining). -/
def msetAdd (m : List (String × List String)) (k v : String) :
    List (String × List String) :=
  match mfind m k with
  | some l => mset m k (addUnique l v)
  | none => m

/-- Processing of one edge in the `nodeConnectionsMap` construction:
`map.get(edge.from)?.add(edge.to); map.get(edge.to)?.add(edge.from)`. -/
def connStep (m : List (String × List String)) (e : NetworkEdge) :
    List (String × List String) :=
  msetAdd (msetAdd m e.«from» e.«to») e.«to» e.«from»

/-- `nodeConnectionsMap`: a set per node key, then both directions of
every edge. -/
def nodeConnectionsMap (nodes : List NetworkNode) (edges : List NetworkEdge) :
    List (String × List String) :=
  edges.foldl connStep (nodes.foldl (fun m n => mset m n.key []) [])

/-- The `visibleKeys` set of the `visibleNodes` memo: all expansion-path
keys plus the connections of the focus (the last path element). -/
def visibleKeys (connMap : List (String × List String)) (path : List String) :
    List String :=
  let s := path.foldl addUnique []
  match path.getLast? with
  | none => s
  | some focus => ((mfind connMap focus).getD []).foldl addUnique s

/-- `visibleNodes`: on an empty path all nodes are visible, otherwise the
nodes whose key is in `visibleKeys`. -/
def visibleNodes (nodes : List NetworkNode)
    (connMap : List (String × List String)) (path : List String) :
    List NetworkNode :=
  if path.length = 0 then nodes
  else nodes.filter (fun n => (visibleKeys connMap path).contains n.key)

/-- `visibleEdges`: edges with both endpoints among the visible nodes. -/
def visibleEdges (edges : List NetworkEdge) (visNodes : List NetworkNode) :
    List NetworkEdge :=
  let keys := visNodes.map (·.key)
  edges.filter (fun e => keys.contains e.«from» && keys.contains e.«to»)

/-- `onExpandClick` on node `n`: no-op on the root; append when `n` is a
direct connection of the current focus; otherwise truncate at `n`'s first
index in the path, if any. -/
def onExpandClick (connMap : List (String × List String)) (centerKey : String)
    (path : List String) (n : String) : List String :=
  if n = centerKey then path
  else
    let isDirectChild := match path.getLast? with
      | some f => ((mfind connMap f).getD []).contains n
      | none => false
    if isDirectChild then path ++ [n]
    else match path.findIdx? (· == n) with
      | some i => path.take (i + 1)
      | none => path

/-! ### Claim C2: the drill-up transition -/

/-- Nodes of the drill-up counterexample. -/
def c2Nodes : List NetworkNode := [⟨"r", false⟩, ⟨"a", true⟩, ⟨"b", true⟩]

/-- Edges of the drill-up counterexample: `r — a — b`. -/
def c2Edges : List NetworkEdge := [⟨"r", "a"⟩, ⟨"a", "b"⟩]

/-- C2 counterexample: in path `[r, a, b]` the node `a` sits at index 1,
yet clicking `a` appends it (because `a` is connected to the focus `b`),
producing `[r, a, b, a]` instead of the truncation `[r, a]`. -/
theorem drill_up_appends_when_connected_to_focus :
    onExpandClick (nodeConnectionsMap c2Nodes c2Edges) "r" ["r", "a", "b"] "a"
      = ["r", "a", "b", "a"] ∧
    (["r", "a", "b", "a"] : List String) ≠ ["r", "a"] := by
  refine ⟨by decide, by decide⟩

/-- C2 amended: clicking a non-root node `n` that already sits in the
path at (first) index `i` truncates the path to `path[0..i]` inclusive,
PROVIDED `n` is not a direct connection of the current focus; a clicked
node connected to the focus is appended instead. -/
theorem drill_up_truncates_when_not_child
    (connMap : List (String × List String)) (centerKey : String)
    (path : List String) (n : String) (i : Nat)
    (hne : n ≠ centerKey)
    (hnc : ∀ f, path.getLast? = some f → n ∉ (mfind connMap f).getD [])
    (hidx : path.findIdx? (· == n) = some i) :
    onExpandClick connMap centerKey path n = path.take (i + 1) := by
  unfold onExpandClick
  rw [if_neg hne]
  have hdc : (match path.getLast? with
      | some f => ((mfind connMap f).getD []).contains n
      | none => false) = false := by
    cases hl : path.getLast? with
    | none => rfl
    | some f =>
      simp only
      rw [← Bool.not_eq_true]
      intro hcon
      exact hnc f hl ((List.contains_iff_exists_mem_beq).1 hcon |>.elim
        (fun x hx => by
          obtain ⟨hx1, hx2⟩ := hx
          rcases eq_of_beq hx2 with rfl
          exact hx1))
  rw [hdc]
  simp only [Bool.false_eq_true, if_false, hidx]

/-- Witness for the amended C2 theorem: path `[r, x, a, b]`, click `x`
(index 1), `x` not connected to the focus `b`. -/
theorem drill_up_truncates_when_not_child_witness :
    ("x" : String) ≠ "r" ∧
    onExpandClick (nodeConnectionsMap
        [⟨"r", false⟩, ⟨"x", true⟩, ⟨"a", true⟩, ⟨"b", true⟩]
        [⟨"r", "x"⟩, ⟨"x", "a"⟩, ⟨"a", "b"⟩])
      "r" ["r", "x", "a", "b"] "x" = ["r", "x"] :=
  ⟨by decide,
   drill_up_truncates_when_not_child
     (nodeConnectionsMap [⟨"r", false⟩, ⟨"x", true⟩, ⟨"a", true⟩, ⟨"b", true⟩]
       [⟨"r", "x"⟩, ⟨"x", "a"⟩, ⟨"a", "b"⟩])
     "r" ["r", "x", "a", "b"] "x" 1 (by decide)
     (by intro f hf hmem
         have : f = "b" := by
           have := hf
           simp [List.getLast?] at this
           exact this.symm
         subst this
         revert hmem
         decide)
     (by decide)⟩

/-! ### Claim C3: the expansion round trip -/

theorem contains_iff_mem {α : Type} [BEq α] [LawfulBEq α] (l : List α) (v : α) :
    l.contains v = true ↔ v ∈ l := by
  rw [List.contains]
  exact List.elem_iff

theorem mem_addUnique (l : List String) (v x : String) :
    x ∈ addUnique l v ↔ x ∈ l ∨ x = v := by
  unfold addUnique
  split
  · rename_i h
    have hv := (contains_iff_mem l v).1 h
    constructor
    · exact Or.inl
    · rintro (h' | rfl)
      · exact h'
      · exact hv
  · simp [List.mem_append]

theorem subset_addUnique (l : List String) (v x : String) (h : x ∈ l) :
    x ∈ addUnique l v :=
  (mem_addUnique l v x).2 (Or.inl h)

theorem self_mem_addUnique (l : List String) (v : String) : v ∈ addUnique l v :=
  (mem_addUnique l v v).2 (Or.inr rfl)

theorem mfind_msetAdd_isSome (m : List (String × List String)) (k v k' : String) :
    (mfind (msetAdd m k v) k').isSome = (mfind m k').isSome := by
  unfold msetAdd
  cases h : mfind m k with
  | none => rfl
  | some l =>
    by_cases hk : k' = k
    · subst hk; rw [mfind_mset_self, h]; rfl
    · rw [mfind_mset_ne _ _ hk]

theorem mem_conn_msetAdd_mono {m : List (String × List String)} {k x : String}
    (k' v : String) (h : x ∈ (mfind m k).getD []) :
    x ∈ (mfind (msetAdd m k' v) k).getD [] := by
  unfold msetAdd
  cases h' : mfind m k' with
  | none => exact h
  | some l =>
    by_cases hk : k = k'
    · subst hk
      rw [mfind_mset_self]
      rw [h'] at h
      exact subset_addUnique _ _ _ h
    · rw [mfind_mset_ne _ _ hk]; exact h

theorem mem_conn_msetAdd_self {m : List (String × List String)} {k v : String}
    (l : List String) (h : mfind m k = some l) :
    v ∈ (mfind (msetAdd m k v) k).getD [] := by
  unfold msetAdd
  rw [h, mfind_mset_self]
  exact self_mem_addUnique l v

theorem connStep_isSome (m : List (String × List String)) (e : NetworkEdge)
    (k : String) : (mfind (connStep m e) k).isSome = (mfind m k).isSome := by
  unfold connStep
  rw [mfind_msetAdd_isSome, mfind_msetAdd_isSome]

theorem mem_conn_connStep_mono {m : List (String × List String)} {k x : String}
    (e : NetworkEdge) (h : x ∈ (mfind m k).getD []) :
    x ∈ (mfind (connStep m e) k).getD [] :=
  mem_conn_msetAdd_mono _ _ (mem_conn_msetAdd_mono _ _ h)

theorem connStep_establishes (m : List (String × List String)) (e : NetworkEdge)
    (hf : (mfind m e.«from»).isSome) (ht : (mfind m e.«to»).isSome) :
    e.«to» ∈ (mfind (connStep m e) e.«from»).getD [] ∧
    e.«from» ∈ (mfind (connStep m e) e.«to»).getD [] := by
  obtain ⟨lf, hlf⟩ := Option.isSome_iff_exists.1 hf
  constructor
  · exact mem_conn_msetAdd_mono _ _ (mem_conn_msetAdd_self lf hlf)
  · have ht1 : (mfind (msetAdd m e.«from» e.«to») e.«to»).isSome := by
      rw [mfind_msetAdd_isSome]; exact ht
    obtain ⟨lt, hlt⟩ := Option.isSome_iff_exists.1 ht1
    exact mem_conn_msetAdd_self lt hlt

theorem foldl_connStep_isSome (edges : List NetworkEdge)
    (m : List (String × List String)) (k : String) :
    (mfind (edges.foldl connStep m) k).isSome = (mfind m k).isSome := by
  induction edges generalizing m with
  | nil => rfl
  | cons e rest ih => rw [List.foldl_cons, ih, connStep_isSome]

theorem mem_conn_foldl_mono (edges : List NetworkEdge)
    {m : List (String × List String)} {k x : String}
    (h : x ∈ (mfind m k).getD []) :
    x ∈ (mfind (edges.foldl connStep m) k).getD [] := by
  induction edges generalizing m with
  | nil => exact h
  | cons e rest ih => exact ih (mem_conn_connStep_mono e h)

theorem mem_conn_foldl_of_edge {edges : List NetworkEdge} {e : NetworkEdge}
    {m : List (String × List String)} (he : e ∈ edges)
    (hf : (mfind m e.«from»).isSome) (ht : (mfind m e.«to»).isSome) :
    e.«to» ∈ (mfind (edges.foldl connStep m) e.«from»).getD [] ∧
    e.«from» ∈ (mfind (edges.foldl connStep m) e.«to»).getD [] := by
  induction edges generalizing m with
  | nil => cases he
  | cons e' rest ih =>
    rw [List.foldl_cons]
    rcases List.mem_cons.1 he with heq | hmem
    · subst heq
      have h := connStep_establishes m e hf ht
      exact ⟨mem_conn_foldl_mono rest h.1, mem_conn_foldl_mono rest h.2⟩
    · exact ih hmem (by rw [connStep_isSome]; exact hf)
        (by rw [connStep_isSome]; exact ht)

theorem mfind_initConn_isSome (nodes : List NetworkNode)
    (m0 : List (String × List String)) (k : String) :
    (mfind (nodes.foldl (fun m n => mset m n.key ([] : List String)) m0) k).isSome
      ↔ k ∈ nodes.map (·.key) ∨ (mfind m0 k).isSome := by
  induction nodes generalizing m0 with
  | nil => simp
  | cons n rest ih =>
    rw [List.foldl_cons, ih]
    by_cases hk : k = n.key
    · subst hk
      simp [mfind_mset_self]
    · rw [mfind_mset_ne _ _ hk]
      simp [List.mem_cons, hk]

theorem conn_edge_mem (nodes : List NetworkNode) (edges : List NetworkEdge)
    (a b : String)
    (ha : a ∈ nodes.map (·.key)) (hb : b ∈ nodes.map (·.key))
    (he : (⟨a, b⟩ : NetworkEdge) ∈ edges ∨ (⟨b, a⟩ : NetworkEdge) ∈ edges) :
    b ∈ (mfind (nodeConnectionsMap nodes edges) a).getD [] ∧
    a ∈ (mfind (nodeConnectionsMap nodes edges) b).getD [] := by
  have hsa : (mfind (nodes.foldl (fun m n => mset m n.key ([] : List String)) []) a).isSome :=
    (mfind_initConn_isSome nodes [] a).2 (Or.inl ha)
  have hsb : (mfind (nodes.foldl (fun m n => mset m n.key ([] : List String)) []) b).isSome :=
    (mfind_initConn_isSome nodes [] b).2 (Or.inl hb)
  unfold nodeConnectionsMap
  rcases he with he | he
  · exact mem_conn_foldl_of_edge he hsa hsb
  · have h := mem_conn_foldl_of_edge he hsb hsa
    exact ⟨h.2, h.1⟩

theorem mem_foldl_addUnique (l s : List String) (k : String) :
    k ∈ l.foldl addUnique s ↔ k ∈ s ∨ k ∈ l := by
  induction l generalizing s with
  | nil => simp
  | cons a rest ih =>
    rw [List.foldl_cons, ih, mem_addUnique]
    simp [List.mem_cons]
    tauto

theorem mem_visibleKeys (connMap : List (String × List String))
    (path : List String) (f k : String) (hl : path.getLast? = some f) :
    k ∈ visibleKeys connMap path ↔ k ∈ path ∨ k ∈ (mfind connMap f).getD [] := by
  unfold visibleKeys
  rw [hl]
  simp only [mem_foldl_addUnique, List.not_mem_nil, false_or]

theorem visibleKeys_round_trip (connMap : List (String × List String))
    (path : List String) (f c : String) (hl : path.getLast? = some f)
    (hc : c ∈ (mfind connMap f).getD []) (k : String) :
    (k ∈ visibleKeys connMap (path ++ [c, f])) ↔ (k ∈ visibleKeys connMap path) := by
  have hl2 : (path ++ [c, f]).getLast? = some f := by
    rw [List.getLast?_append]; rfl
  rw [mem_visibleKeys _ _ f k hl2, mem_visibleKeys _ _ f k hl]
  have hfp : f ∈ path := List.mem_of_mem_getLast? hl
  simp only [List.mem_append, List.mem_cons, List.not_mem_nil, or_false]
  constructor
  · rintro ((h | rfl | rfl) | h)
    · exact Or.inl h
    · exact Or.inr hc
    · exact Or.inl hfp
    · exact Or.inr h
  · rintro (h | h)
    · exact Or.inl (Or.inl h)
    · exact Or.inr h

theorem contains_eq_of_mem_iff {l₁ l₂ : List String} {k : String}
    (h : k ∈ l₁ ↔ k ∈ l₂) : l₁.contains k = l₂.contains k := by
  by_cases h₁ : k ∈ l₁
  · rw [(contains_iff_mem l₁ k).2 h₁, (contains_iff_mem l₂ k).2 (h.1 h₁)]
  · have h₂ : k ∉ l₂ := fun hh => h₁ (h.2 hh)
    have e₁ : l₁.contains k = false := by
      rw [← Bool.not_eq_true]; exact fun hc => h₁ ((contains_iff_mem _ _).1 hc)
    have e₂ : l₂.contains k = false := by
      rw [← Bool.not_eq_true]; exact fun hc => h₂ ((contains_iff_mem _ _).1 hc)
    rw [e₁, e₂]

/-- Nodes of the round-trip counterexample. -/
def c3Nodes : List NetworkNode := [⟨"r", false⟩, ⟨"a", true⟩, ⟨"b", true⟩]

/-- Edges of the round-trip counterexample: `r — a`, `r — b`. -/
def c3Edges : List NetworkEdge := [⟨"r", "a"⟩, ⟨"r", "b"⟩]

/-- C3 counterexample: with focus `r` (the root) and path `[r]`, drilling
down to `a` and then triggering the expansion action on `r` does NOT
restore the prior visible sets: clicking the root is a no-op
(`n.key !== centerKey` guards every path change), so `b` stays hidden. -/
theorem round_trip_fails_at_root :
    visibleNodes c3Nodes (nodeConnectionsMap c3Nodes c3Edges)
        (onExpandClick (nodeConnectionsMap c3Nodes c3Edges) "r"
          (onExpandClick (nodeConnectionsMap c3Nodes c3Edges) "r" ["r"] "a") "r")
      ≠ visibleNodes c3Nodes (nodeConnectionsMap c3Nodes c3Edges) ["r"] := by
  decide

/-- C3 amended: for a focus `f` that is NOT the root, drilling down to a
connected node `c` and then triggering the expansion action on `f`
appends `f` again (rather than truncating — `f` is connected to the new
focus `c`), and this restores exactly the prior `visibleNodes` and
`visibleEdges` sets. -/
theorem expansion_round_trip (nodes : List NetworkNode) (edges : List NetworkEdge)
    (centerKey : String) (path : List String) (f c : String)
    (hlast : path.getLast? = some f)
    (hf : f ≠ centerKey) (hc : c ≠ centerKey)
    (hfk : f ∈ nodes.map (·.key)) (hck : c ∈ nodes.map (·.key))
    (he : (⟨f, c⟩ : NetworkEdge) ∈ edges ∨ (⟨c, f⟩ : NetworkEdge) ∈ edges) :
    onExpandClick (nodeConnectionsMap nodes edges) centerKey
        (onExpandClick (nodeConnectionsMap nodes edges) centerKey path c) f
      = path ++ [c, f] ∧
    visibleNodes nodes (nodeConnectionsMap nodes edges) (path ++ [c, f])
      = visibleNodes nodes (nodeConnectionsMap nodes edges) path ∧
    visibleEdges edges
        (visibleNodes nodes (nodeConnectionsMap nodes edges) (path ++ [c, f]))
      = visibleEdges edges
        (visibleNodes nodes (nodeConnectionsMap nodes edges) path) := by
  obtain ⟨hc1, hc2⟩ := conn_edge_mem nodes edges f c hfk hck he
  have hnodesEq : visibleNodes nodes (nodeConnectionsMap nodes edges) (path ++ [c, f])
      = visibleNodes nodes (nodeConnectionsMap nodes edges) path := by
    have hne : path ≠ [] := by
      intro h; subst h; simp at hlast
    unfold visibleNodes
    have hl1 : ¬((path ++ [c, f]).length = 0) := by simp
    have hl2 : ¬(path.length = 0) := by simp [List.length_eq_zero, hne]
    rw [if_neg hl1, if_neg hl2]
    exact List.filter_congr (fun n _ => contains_eq_of_mem_iff
      (visibleKeys_round_trip (nodeConnectionsMap nodes edges) path f c hlast hc1 n.key))
  refine ⟨?_, hnodesEq, by rw [hnodesEq]⟩
  have hstep1 : onExpandClick (nodeConnectionsMap nodes edges) centerKey path c
      = path ++ [c] := by
    unfold onExpandClick
    rw [if_neg hc, hlast]
    simp only [(contains_iff_mem _ _).2 hc1, if_true]
  have hlast2 : (path ++ [c]).getLast? = some c := by
    rw [List.getLast?_append]; rfl
  have hstep2 : onExpandClick (nodeConnectionsMap nodes edges) centerKey
      (path ++ [c]) f = (path ++ [c]) ++ [f] := by
    unfold onExpandClick
    rw [if_neg hf, hlast2]
    simp only [(contains_iff_mem _ _).2 hc2, if_true]
  rw [hstep1, hstep2, List.append_assoc]
  rfl

/-- Witness for the amended C3 theorem: path `[r, a]`, focus `a`,
drill down to `b` then click `a` again. -/
theorem expansion_round_trip_witness :
    (["r", "a"] : List String).getLast? = some "a" ∧
    visibleNodes [⟨"r", false⟩, ⟨"a", true⟩, ⟨"b", true⟩]
        (nodeConnectionsMap [⟨"r", false⟩, ⟨"a", true⟩, ⟨"b", true⟩]
          [⟨"r", "a"⟩, ⟨"a", "b"⟩])
        (["r", "a"] ++ ["b", "a"])
      = visibleNodes [⟨"r", false⟩, ⟨"a", true⟩, ⟨"b", true⟩]
        (nodeConnectionsMap [⟨"r", false⟩, ⟨"a", true⟩, ⟨"b", true⟩]
          [⟨"r", "a"⟩, ⟨"a", "b"⟩])
        ["r", "a"] :=
  ⟨by decide,
   (expansion_round_trip [⟨"r", false⟩, ⟨"a", true⟩, ⟨"b", true⟩]
     [⟨"r", "a"⟩, ⟨"a", "b"⟩] "r" ["r", "a"] "a" "b"
     (by decide) (by decide) (by decide) (by decide) (by decide)
     (Or.inl (by decide))).2.1⟩

/-! ## Cluster Aggregator
`computeGridClusters` and `computeAggregatedEdges` (NetworkGraph.cluster.ts).
The group key `G:${cx},${cy}` is modelled as the pair `(cx, cy)` (the
string format is injective in the two integers). `Infinity`-initialised
bounds are `none` as in `computeGraphBounds`. -/

/-- `CLUSTER_GRID_SIZE` (NetworkGraph.cluster.ts). -/
def CLUSTER_GRID_SIZE : ℚ := 160

/-- `padX = NODE_BOX_WIDTH / 3`. -/
def padX : ℚ := NODE_BOX_WIDTH / 3

/-- `padY = NODE_BOX_HEIGHT / 3`. -/
def padY : ℚ := NODE_BOX_HEIGHT / 3

/-- Grid-cell identity `G:${cx},${cy}`. -/
abbrev Cell := Int × Int

/-- The floor-divided grid cell of a position. -/
def cellOf (gridSize : ℚ) (p : NodePos) : Cell :=
  (⌊p.x / gridSize⌋, ⌊p.y / gridSize⌋)

/-- In-progress group: members plus `Infinity`-initialised bounds. -/
structure GroupAcc where
  members : List String
  minX : Option ℚ
  minY : Option ℚ
  maxX : Option ℚ
  maxY : Option ℚ
deriving DecidableEq

/-- The freshly created group (`members: [], bounds: ±Infinity`). -/
def emptyAcc : GroupAcc := ⟨[], none, none, none, none⟩

/-- `g.members.push(key)` plus the four padded bounds updates. -/
def growAcc (g : GroupAcc) (key : String) (p : NodePos) : GroupAcc :=
  ⟨g.members ++ [key],
   omin g.minX (p.x - padX), omin g.minY (p.y - padY),
   omax g.maxX (p.x + padX), omax g.maxY (p.y + padY)⟩

/-- One iteration of the `for (const n of nodes)` loop of
`computeGridClusters`. -/
def clusterStep (gridSize : ℚ) (positions : List (String × NodePos))
    (st : List (Cell × GroupAcc) × List (String × Cell)) (n : NetworkNode) :
    List (Cell × GroupAcc) × List (String × Cell) :=
  match mfind positions n.key with
  | none => st
  | some p =>
    let c := cellOf gridSize p
    let g := (mfind st.1 c).getD emptyAcc
    (mset st.1 c (growAcc g n.key p), mset st.2 n.key c)

/-- `ClusterGroup` (NetworkGraph.cluster.ts) after finalisation. -/
structure ClusterGroup where
  key : Cell
  members : List String
  bounds : Bounds
  center : NodePos
deriving DecidableEq

/-- Return record of `computeGridClusters`. -/
structure ClusterResult where
  groups : List ClusterGroup
  nodeToGroup : List (String × Cell)
  groupPositions : List (Cell × NodePos)
  groupBounds : List (Cell × Bounds)

/-- Total order used for the final `groups.sort` (stands in for
`localeCompare` on the formatted cell keys; the claims are order-blind). -/
def cellLe (a b : Cell) : Bool :=
  if a.1 = b.1 then decide (a.2 ≤ b.2) else decide (a.1 ≤ b.1)

/-- Insertion step of the group sort. -/
def insertSortedG (g : ClusterGroup) : List ClusterGroup → List ClusterGroup
  | [] => [g]
  | h :: t => if cellLe g.key h.key then g :: h :: t else h :: insertSortedG g t

/-- Stable sort of the finalised groups. -/
def sortGroups (l : List ClusterGroup) : List ClusterGroup :=
  l.foldr insertSortedG []

/-- Finalisation of one accumulated group: skipped unless all four bounds
are finite; otherwise the center is the midpoint of the padded box. -/
def finStep (acc : List ClusterGroup × List (Cell × NodePos) × List (Cell × Bounds))
    (e : Cell × GroupAcc) :
    List ClusterGroup × List (Cell × NodePos) × List (Cell × Bounds) :=
  match e.2.minX, e.2.minY, e.2.maxX, e.2.maxY with
  | some minX, some minY, some maxX, some maxY =>
    let cx := (minX + maxX) / 2
    let cy := (minY + maxY) / 2
    (acc.1 ++ [⟨e.1, e.2.members, ⟨minX, minY, maxX, maxY⟩, ⟨cx, cy⟩⟩],
     mset acc.2.1 e.1 ⟨cx, cy⟩, mset acc.2.2 e.1 ⟨minX, minY, maxX, maxY⟩)
  | _, _, _, _ => acc

/-- `computeGridClusters({nodes, positions, gridSize})`. -/
def computeGridClusters (nodes : List NetworkNode)
    (positions : List (String × NodePos)) (gridSize : ℚ) : ClusterResult :=
  let st := nodes.foldl (clusterStep gridSize positions) ([], [])
  let fin := st.1.foldl finStep ([], [], [])
  ⟨sortGroups fin.1, st.2, fin.2.1, fin.2.2⟩

/-! ### Specification functions for the cluster invariants -/

/-- The `(key, position)` pairs of the processed nodes falling in cell
`c`, in processing order. -/
def cellEntries (gridSize : ℚ) (positions : List (String × NodePos))
    (done : List NetworkNode) (c : Cell) : List (String × NodePos) :=
  done.filterMap (fun n => match mfind positions n.key with
    | some p => if cellOf gridSize p = c then some (n.key, p) else none
    | none => none)

/-- The group accumulator obtained by growing `emptyAcc` with a list of
`(key, position)` pairs. -/
def entriesAcc (es : List (String × NodePos)) : GroupAcc :=
  es.foldl (fun g e => growAcc g e.1 e.2) emptyAcc

/-- The `(key, position)` pairs recovered from a member list via the
position map. -/
def memberEntries (positions : List (String × NodePos)) (keys : List String) :
    List (String × NodePos) :=
  keys.filterMap (fun k => (mfind positions k).map (fun p => (k, p)))

theorem entriesAcc_from_members (es : List (String × NodePos)) :
    ∀ g : GroupAcc, (es.foldl (fun g e => growAcc g e.1 e.2) g).members
      = g.members ++ es.map (·.1) := by
  induction es with
  | nil => intro g; simp
  | cons e rest ih =>
    intro g
    rw [List.foldl_cons, ih]
    simp [growAcc]

theorem entriesAcc_members (es : List (String × NodePos)) :
    (entriesAcc es).members = es.map (·.1) := by
  unfold entriesAcc
  rw [entriesAcc_from_members]
  rfl

theorem foldl_grow_isSome (es : List (String × NodePos)) :
    ∀ g : GroupAcc, g.minX.isSome → g.minY.isSome → g.maxX.isSome → g.maxY.isSome →
      ((es.foldl (fun g e => growAcc g e.1 e.2) g).minX.isSome ∧
       (es.foldl (fun g e => growAcc g e.1 e.2) g).minY.isSome ∧
       (es.foldl (fun g e => growAcc g e.1 e.2) g).maxX.isSome ∧
       (es.foldl (fun g e => growAcc g e.1 e.2) g).maxY.isSome) := by
  induction es with
  | nil => intro g h1 h2 h3 h4; exact ⟨h1, h2, h3, h4⟩
  | cons e rest ih =>
    intro g h1 h2 h3 h4
    rw [List.foldl_cons]
    exact ih _ (by simp [growAcc, omin]) (by simp [growAcc, omin])
      (by simp [growAcc, omax]) (by simp [growAcc, omax])

theorem entriesAcc_isSome_of_ne (es : List (String × NodePos)) (h : es ≠ []) :
    (entriesAcc es).minX.isSome ∧ (entriesAcc es).minY.isSome ∧
    (entriesAcc es).maxX.isSome ∧ (entriesAcc es).maxY.isSome := by
  cases es with
  | nil => exact absurd rfl h
  | cons e rest =>
    unfold entriesAcc
    rw [List.foldl_cons]
    exact foldl_grow_isSome rest _ (by simp [growAcc, emptyAcc, omin])
      (by simp [growAcc, emptyAcc, omin]) (by simp [growAcc, emptyAcc, omax])
      (by simp [growAcc, emptyAcc, omax])

theorem mem_cellEntries {gridSize : ℚ} {positions : List (String × NodePos)}
    {done : List NetworkNode} {c : Cell} {k : String} {p : NodePos} :
    (k, p) ∈ cellEntries gridSize positions done c ↔
      ∃ n ∈ done, n.key = k ∧ mfind positions k = some p ∧ cellOf gridSize p = c := by
  unfold cellEntries
  rw [List.mem_filterMap]
  constructor
  · rintro ⟨n, hn, hf⟩
    split at hf
    · rename_i q hq
      split at hf
      · rename_i hc'
        rw [Option.some.injEq, Prod.mk.injEq] at hf
        obtain ⟨hk, hpq⟩ := hf
        subst hk
        subst hpq
        exact ⟨n, hn, rfl, hq, hc'⟩
      · cases hf
    · cases hf
  · rintro ⟨n, hn, hk, hp, hc⟩
    refine ⟨n, hn, ?_⟩
    rw [hk, hp]
    simp [hc]

theorem memberEntries_recover (es : List (String × NodePos))
    (positions : List (String × NodePos))
    (h : ∀ e ∈ es, mfind positions e.1 = some e.2) :
    memberEntries positions (es.map (·.1)) = es := by
  induction es with
  | nil => rfl
  | cons e rest ih =>
    have he : mfind positions e.1 = some e.2 := h e (List.mem_cons_self e rest)
    have ih' := ih (fun x hx => h x (List.mem_cons_of_mem e hx))
    unfold memberEntries at ih' ⊢
    rw [List.map_cons, List.filterMap_cons, he]
    simp only [Option.map] at ih' ⊢
    rw [ih']

theorem cellEntries_lookup {gridSize : ℚ} {positions : List (String × NodePos)}
    {done : List NetworkNode} {c : Cell} :
    ∀ e ∈ cellEntries gridSize positions done c, mfind positions e.1 = some e.2 := by
  intro e he
  obtain ⟨n, _, hk, hp, _⟩ := mem_cellEntries.1 (show (e.1, e.2) ∈ _ from he)
  exact hp

/-! ### Extra association-list lemmas for `mset` -/

theorem mfind_eq_none_iff {K V : Type} [DecidableEq K] (m : List (K × V)) (k : K) :
    mfind m k = none ↔ k ∉ m.map (·.1) := by
  induction m with
  | nil => simp [mfind]
  | cons e rest ih =>
    obtain ⟨k', v⟩ := e
    by_cases h : k' = k
    · subst h
      simp [mfind]
    · have h2 : ¬(k = k') := fun e => h e.symm
      simp [mfind, h, ih, h2]

theorem mfind_some_mem {K V : Type} [DecidableEq K] {m : List (K × V)} {k : K}
    {v : V} (h : mfind m k = some v) : (k, v) ∈ m := by
  induction m with
  | nil => cases h
  | cons e rest ih =>
    obtain ⟨k', v'⟩ := e
    by_cases hk : k' = k
    · subst hk
      simp [mfind] at h
      simp [h]
    · simp [mfind, hk] at h
      exact List.mem_cons_of_mem _ (ih h)

theorem mem_mfind_of_nodup {K V : Type} [DecidableEq K] {m : List (K × V)}
    {k : K} {v : V} (hnd : (m.map (·.1)).Nodup) (h : (k, v) ∈ m) :
    mfind m k = some v := by
  induction m with
  | nil => cases h
  | cons e rest ih =>
    obtain ⟨k', v'⟩ := e
    rw [List.map_cons, List.nodup_cons] at hnd
    rcases List.mem_cons.1 h with heq | hmem
    · obtain ⟨h1, h2⟩ := Prod.mk.injEq .. ▸ heq
      subst h1; subst h2
      simp [mfind]
    · have hk : k' ≠ k := by
        intro heq'; subst heq'
        exact hnd.1 (List.mem_map.2 ⟨(k', v), hmem, rfl⟩)
      simp [mfind, hk]
      exact ih hnd.2 hmem

theorem mset_map_fst_of_isSome {K V : Type} [DecidableEq K] {m : List (K × V)}
    {k : K} (v : V) (h : (mfind m k).isSome) :
    (mset m k v).map (·.1) = m.map (·.1) := by
  induction m with
  | nil => simp [mfind] at h
  | cons e rest ih =>
    obtain ⟨k', v'⟩ := e
    by_cases hk : k' = k
    · subst hk; simp [mset]
    · simp only [mfind, hk, if_false] at h
      simp [mset, hk, ih h]

theorem mset_map_fst_of_none {K V : Type} [DecidableEq K] {m : List (K × V)}
    {k : K} (v : V) (h : mfind m k = none) :
    (mset m k v).map (·.1) = m.map (·.1) ++ [k] := by
  induction m with
  | nil => simp [mset]
  | cons e rest ih =>
    obtain ⟨k', v'⟩ := e
    by_cases hk : k' = k
    · subst hk; simp [mfind] at h
    · simp only [mfind, hk, if_false] at h
      simp [mset, hk, ih h]

theorem sum_map_mset_none {K V : Type} [DecidableEq K] {m : List (K × V)}
    {k : K} (v : V) (f : K × V → Nat) (h : mfind m k = none) :
    ((mset m k v).map f).sum = (m.map f).sum + f (k, v) := by
  induction m with
  | nil => simp [mset]
  | cons e rest ih =>
    obtain ⟨k', v'⟩ := e
    by_cases hk : k' = k
    · subst hk; simp [mfind] at h
    · simp only [mfind, hk, if_false] at h
      simp [mset, hk, ih h]
      omega

theorem sum_map_mset_some {K V : Type} [DecidableEq K] {m : List (K × V)}
    {k : K} {g : V} (v : V) (f : K × V → Nat) (h : mfind m k = some g) :
    ((mset m k v).map f).sum + f (k, g) = (m.map f).sum + f (k, v) := by
  induction m with
  | nil => cases h
  | cons e rest ih =>
    obtain ⟨k', v'⟩ := e
    by_cases hk : k' = k
    · subst hk
      simp [mfind] at h
      subst h
      simp [mset]
      omega
    · simp only [mfind, hk, if_false] at h
      simp [mset, hk]
      have := ih h
      omega

/-- Invariant of the `computeGridClusters` accumulation loop after
processing the node prefix `done`. -/
def ClusterInv (gridSize : ℚ) (positions : List (String × NodePos))
    (done : List NetworkNode)
    (st : List (Cell × GroupAcc) × List (String × Cell)) : Prop :=
  ((st.1.map (·.1)).Nodup) ∧
  (∀ c, mfind st.1 c = none → cellEntries gridSize positions done c = []) ∧
  (∀ c g, mfind st.1 c = some g →
      g = entriesAcc (cellEntries gridSize positions done c) ∧
      cellEntries gridSize positions done c ≠ []) ∧
  (∀ n, n ∈ done →
      mfind st.2 n.key = (mfind positions n.key).map (fun p => cellOf gridSize p)) ∧
  (∀ k, (∀ n, n ∈ done → n.key ≠ k) → mfind st.2 k = none) ∧
  ((st.1.map (fun e => e.2.members.length)).sum
      = (done.filter (fun n => (mfind positions n.key).isSome)).length)

theorem cellEntries_append_one (gridSize : ℚ) (positions : List (String × NodePos))
    (done : List NetworkNode) (n : NetworkNode) (c : Cell) :
    cellEntries gridSize positions (done ++ [n]) c =
      cellEntries gridSize positions done c ++
        (match mfind positions n.key with
         | some p => if cellOf gridSize p = c then [(n.key, p)] else []
         | none => []) := by
  unfold cellEntries
  rw [List.filterMap_append]
  congr 1
  cases hp : mfind positions n.key with
  | none => simp [hp]
  | some p =>
    by_cases hc : cellOf gridSize p = c
    · simp [hp, hc]
    · simp [hp, hc]

theorem clusterInv_step (gridSize : ℚ) (positions : List (String × NodePos))
    (done : List NetworkNode) (n : NetworkNode)
    (st : List (Cell × GroupAcc) × List (String × Cell))
    (hinv : ClusterInv gridSize positions done st) :
    ClusterInv gridSize positions (done ++ [n])
      (clusterStep gridSize positions st n) := by
  obtain ⟨hnd, hnone, hsome, hn2g, hn2gnone, hsum⟩ := hinv
  cases hp : mfind positions n.key with
  | none =>
    have hstep : clusterStep gridSize positions st n = st := by
      unfold clusterStep; rw [hp]
    rw [hstep]
    have hce : ∀ c, cellEntries gridSize positions (done ++ [n]) c
        = cellEntries gridSize positions done c := by
      intro c
      rw [cellEntries_append_one, hp]
      simp
    refine ⟨hnd, ?_, ?_, ?_, ?_, ?_⟩
    · intro c hc; rw [hce]; exact hnone c hc
    · intro c g hg; rw [hce]; exact hsome c g hg
    · intro m hm
      rcases List.mem_append.1 hm with hm | hm
      · exact hn2g m hm
      · have hmn : m = n := List.mem_singleton.1 hm
        subst hmn
        by_cases hdup : ∃ m' ∈ done, m'.key = m.key
        · obtain ⟨m', hm', hk'⟩ := hdup
          rw [← hk']
          exact hn2g m' hm'
        · rw [hp, Option.map_none']
          exact hn2gnone m.key (fun m' hm' hk' =>
            hdup ⟨m', hm', hk'⟩)
    · intro k hk
      exact hn2gnone k (fun m hm => hk m (List.mem_append_left _ hm))
    · rw [hsum, List.filter_append]
      simp [hp]
  | some p =>
    have hstep : clusterStep gridSize positions st n =
        (mset st.1 (cellOf gridSize p) (growAcc ((mfind st.1 (cellOf gridSize p)).getD emptyAcc) n.key p),
         mset st.2 n.key (cellOf gridSize p)) := by
      unfold clusterStep; rw [hp]
    rw [hstep]
    set c₀ := cellOf gridSize p with hc₀
    have hce : ∀ c, cellEntries gridSize positions (done ++ [n]) c
        = cellEntries gridSize positions done c ++
          (if c₀ = c then [(n.key, p)] else []) := by
      intro c
      rw [cellEntries_append_one, hp]
    have hgrow : growAcc ((mfind st.1 c₀).getD emptyAcc) n.key p
        = entriesAcc (cellEntries gridSize positions (done ++ [n]) c₀) := by
      rw [hce c₀, if_pos rfl]
      unfold entriesAcc
      rw [List.foldl_append]
      cases hg : mfind st.1 c₀ with
      | none =>
        rw [hnone c₀ hg]
        simp [entriesAcc]
      | some g =>
        obtain ⟨hgeq, _⟩ := hsome c₀ g hg
        rw [Option.getD_some, hgeq]
        simp [entriesAcc]
    refine ⟨?_, ?_, ?_, ?_, ?_, ?_⟩
    · cases hg : mfind st.1 c₀ with
      | none =>
        rw [mset_map_fst_of_none _ hg]
        have : c₀ ∉ st.1.map (·.1) := (mfind_eq_none_iff _ _).1 hg
        simp [List.nodup_append, hnd, this]
      | some g =>
        rw [mset_map_fst_of_isSome _ (by rw [hg]; rfl)]
        exact hnd
    · intro c hc
      by_cases hcc : c = c₀
      · subst hcc
        rw [mfind_mset_self] at hc
        cases hc
      · rw [mfind_mset_ne _ _ hcc] at hc
        rw [hce c, if_neg (fun h => hcc h.symm), List.append_nil]
        exact hnone c hc
    · intro c g hg
      by_cases hcc : c = c₀
      · subst hcc
        rw [mfind_mset_self] at hg
        injection hg with hg
        subst hg
        refine ⟨hgrow, ?_⟩
        rw [hce c₀, if_pos rfl]
        simp
      · rw [mfind_mset_ne _ _ hcc] at hg
        rw [hce c, if_neg (fun h => hcc h.symm), List.append_nil]
        exact hsome c g hg
    · intro m hm
      rcases List.mem_append.1 hm with hm | hm
      · by_cases hkm : m.key = n.key
        · rw [hkm, mfind_mset_self, hp]
          rfl
        · rw [mfind_mset_ne _ _ hkm]
          exact hn2g m hm
      · have hmn : m = n := List.mem_singleton.1 hm
        subst hmn
        rw [mfind_mset_self, hp]
        rfl
    · intro k hk
      have hkn : n.key ≠ k := hk n (List.mem_append_right _ (List.mem_singleton_self n))
      rw [mfind_mset_ne _ _ (fun h => hkn h.symm)]
      exact hn2gnone k (fun m hm => hk m (List.mem_append_left _ hm))
    · have hrhs : ((done ++ [n]).filter
          (fun n => (mfind positions n.key).isSome)).length
          = (done.filter (fun n => (mfind positions n.key).isSome)).length + 1 := by
        rw [List.filter_append]
        simp [hp]
      rw [hrhs, ← hsum]
      cases hg : mfind st.1 c₀ with
      | none =>
        rw [sum_map_mset_none _ _ hg]
        simp [growAcc, emptyAcc]
      | some g =>
        have h2 := sum_map_mset_some
          (growAcc (Option.getD (some g) emptyAcc) n.key p)
          (fun e => e.2.members.length) hg
        simp only [Option.getD_some] at h2 ⊢
        have hlen : (growAcc g n.key p).members.length = g.members.length + 1 := by
          simp [growAcc]
        rw [hlen] at h2
        omega

theorem clusterInv_fold (gridSize : ℚ) (positions : List (String × NodePos)) :
    ∀ (todo done : List NetworkNode)
      (st : List (Cell × GroupAcc) × List (String × Cell)),
      ClusterInv gridSize positions done st →
      ClusterInv gridSize positions (done ++ todo)
        (todo.foldl (clusterStep gridSize positions) st)
  | [], done, st, hinv => by simpa using hinv
  | n :: rest, done, st, hinv => by
    have h1 := clusterInv_step gridSize positions done n st hinv
    have h2 := clusterInv_fold gridSize positions rest (done ++ [n])
      (clusterStep gridSize positions st n) h1
    simpa [List.append_assoc] using h2

theorem clusterInv_computeGridClusters (gridSize : ℚ)
    (positions : List (String × NodePos)) (nodes : List NetworkNode) :
    ClusterInv gridSize positions nodes
      (nodes.foldl (clusterStep gridSize positions) ([], [])) := by
  have hbase : ClusterInv gridSize positions [] ([], []) := by
    refine ⟨by simp, ?_, ?_, ?_, ?_, by simp⟩
    · intro c _; rfl
    · intro c g hg; simp [mfind] at hg
    · intro n hn; cases hn
    · intro k _; rfl
  have h := clusterInv_fold gridSize positions nodes [] ([], []) hbase
  simpa using h

/-- The finalisation of one accumulated group as a partial function:
`none` when a bound is non-finite (the skip branch of the loop). -/
def toGroup? (e : Cell × GroupAcc) : Option ClusterGroup :=
  match e.2.minX, e.2.minY, e.2.maxX, e.2.maxY with
  | some minX, some minY, some maxX, some maxY =>
    some ⟨e.1, e.2.members, ⟨minX, minY, maxX, maxY⟩,
      ⟨(minX + maxX) / 2, (minY + maxY) / 2⟩⟩
  | _, _, _, _ => none

theorem finalize_fst (l : List (Cell × GroupAcc)) :
    ∀ acc, (l.foldl finStep acc).1 = acc.1 ++ l.filterMap toGroup? := by
  induction l with
  | nil => intro acc; simp
  | cons e rest ih =>
    intro acc
    rw [List.foldl_cons, ih, List.filterMap_cons]
    unfold finStep toGroup?
    cases h1 : e.2.minX <;> cases h2 : e.2.minY <;>
      cases h3 : e.2.maxX <;> cases h4 : e.2.maxY <;>
      simp [List.append_assoc]

theorem insertSortedG_perm (g : ClusterGroup) (l : List ClusterGroup) :
    (insertSortedG g l).Perm (g :: l) := by
  induction l with
  | nil => exact List.Perm.refl _
  | cons h t ih =>
    unfold insertSortedG
    split
    · exact List.Perm.refl _
    · exact (List.Perm.cons h ih).trans (List.Perm.swap g h t)

theorem sortGroups_perm (l : List ClusterGroup) : (sortGroups l).Perm l := by
  unfold sortGroups
  induction l with
  | nil => exact List.Perm.refl _
  | cons g t ih =>
    rw [List.foldr_cons]
    exact (insertSortedG_perm g _).trans (ih.cons g)

theorem computeGridClusters_groups_perm (nodes : List NetworkNode)
    (positions : List (String × NodePos)) (gridSize : ℚ) :
    (computeGridClusters nodes positions gridSize).groups.Perm
      (((nodes.foldl (clusterStep gridSize positions) ([], [])).1).filterMap toGroup?) := by
  unfold computeGridClusters
  refine (sortGroups_perm _).trans ?_
  rw [finalize_fst]
  exact List.Perm.refl _

theorem computeGridClusters_nodeToGroup (nodes : List NetworkNode)
    (positions : List (String × NodePos)) (gridSize : ℚ) :
    (computeGridClusters nodes positions gridSize).nodeToGroup
      = (nodes.foldl (clusterStep gridSize positions) ([], [])).2 := rfl

theorem toGroup?_eq_some {e : Cell × GroupAcc} {g : ClusterGroup}
    (h : toGroup? e = some g) :
    e.1 = g.key ∧
    e.2 = ⟨g.members, some g.bounds.minX, some g.bounds.minY,
           some g.bounds.maxX, some g.bounds.maxY⟩ ∧
    g.center = ⟨(g.bounds.minX + g.bounds.maxX) / 2,
                (g.bounds.minY + g.bounds.maxY) / 2⟩ := by
  obtain ⟨c, mem, ox, oy, oX, oY⟩ := e
  cases ox <;> cases oy <;> cases oX <;> cases oY <;>
    simp only [toGroup?] at h <;> cases h <;> simp

theorem toGroup?_isSome_of_entry {e : Cell × GroupAcc}
    (h1 : e.2.minX.isSome) (h2 : e.2.minY.isSome)
    (h3 : e.2.maxX.isSome) (h4 : e.2.maxY.isSome) :
    (toGroup? e).isSome := by
  obtain ⟨c, mem, ox, oy, oX, oY⟩ := e
  cases ox <;> cases oy <;> cases oX <;> cases oY <;>
    simp_all [toGroup?]

/-- Every accumulated entry of the cluster loop survives finalisation:
its group accumulator is `entriesAcc` of a nonempty entry list, so all
four bounds are finite. -/
theorem st_entry_toGroup?_isSome {nodes : List NetworkNode}
    {positions : List (String × NodePos)} {gridSize : ℚ}
    {e : Cell × GroupAcc}
    (he : e ∈ (nodes.foldl (clusterStep gridSize positions) ([], [])).1) :
    (toGroup? e).isSome := by
  obtain ⟨hnd, _, hsome, _, _, _⟩ := clusterInv_computeGridClusters gridSize positions nodes
  have hf := mem_mfind_of_nodup hnd (show (e.1, e.2) ∈ _ from he)
  obtain ⟨hacc, hne⟩ := hsome e.1 e.2 hf
  have hs := entriesAcc_isSome_of_ne _ hne
  rw [← hacc] at hs
  exact toGroup?_isSome_of_entry hs.1 hs.2.1 hs.2.2.1 hs.2.2.2

/-- Destructor for membership in the returned `groups` list. -/
theorem groups_member_entry {nodes : List NetworkNode}
    {positions : List (String × NodePos)} {gridSize : ℚ} {g : ClusterGroup}
    (hg : g ∈ (computeGridClusters nodes positions gridSize).groups) :
    mfind (nodes.foldl (clusterStep gridSize positions) ([], [])).1 g.key
      = some ⟨g.members, some g.bounds.minX, some g.bounds.minY,
              some g.bounds.maxX, some g.bounds.maxY⟩ ∧
    g.center = ⟨(g.bounds.minX + g.bounds.maxX) / 2,
                (g.bounds.minY + g.bounds.maxY) / 2⟩ := by
  have hmem := (computeGridClusters_groups_perm nodes positions gridSize).mem_iff.1 hg
  obtain ⟨e, he, hge⟩ := List.mem_filterMap.1 hmem
  obtain ⟨hk, hacc, hcen⟩ := toGroup?_eq_some hge
  have hnd := (clusterInv_computeGridClusters gridSize positions nodes).1
  have hf := mem_mfind_of_nodup hnd (show (e.1, e.2) ∈ _ from he)
  rw [hk, hacc] at hf
  exact ⟨hf, hcen⟩

/-- Every member key of a returned group has a position whose cell is the
group's key. -/
theorem groups_member_key {nodes : List NetworkNode}
    {positions : List (String × NodePos)} {gridSize : ℚ} {g : ClusterGroup}
    (hg : g ∈ (computeGridClusters nodes positions gridSize).groups)
    {k : String} (hk : k ∈ g.members) :
    ∃ p, mfind positions k = some p ∧ cellOf gridSize p = g.key := by
  obtain ⟨hf, _⟩ := groups_member_entry hg
  obtain ⟨_, _, hsome, _, _, _⟩ := clusterInv_computeGridClusters gridSize positions nodes
  obtain ⟨hacc, _⟩ := hsome g.key _ hf
  have hmem : g.members = (cellEntries gridSize positions nodes g.key).map (·.1) := by
    have := congrArg GroupAcc.members hacc
    simpa [entriesAcc_members] using this
  rw [hmem] at hk
  obtain ⟨pair, hpair, hfst⟩ := List.mem_map.1 hk
  obtain ⟨n, _, _, hp, hc⟩ := mem_cellEntries.1
    (show (pair.1, pair.2) ∈ _ from hpair)
  exact ⟨pair.2, hfst ▸ hp, hc⟩

theorem groups_eq_of_key_eq {nodes : List NetworkNode}
    {positions : List (String × NodePos)} {gridSize : ℚ} {g g' : ClusterGroup}
    (hg : g ∈ (computeGridClusters nodes positions gridSize).groups)
    (hg' : g' ∈ (computeGridClusters nodes positions gridSize).groups)
    (hk : g.key = g'.key) : g = g' := by
  obtain ⟨hfg, hcg⟩ := groups_member_entry hg
  obtain ⟨hfg', hcg'⟩ := groups_member_entry hg'
  rw [hk, hfg'] at hfg
  injection hfg with hfg
  simp only [GroupAcc.mk.injEq, Option.some.injEq] at hfg
  obtain ⟨hm, h1, h2, h3, h4⟩ := hfg
  obtain ⟨gk, gm, gb, gc⟩ := g
  obtain ⟨gk', gm', gb', gc'⟩ := g'
  obtain ⟨b1, b2, b3, b4⟩ := gb
  obtain ⟨b1', b2', b3', b4'⟩ := gb'
  simp only at hk hm h1 h2 h3 h4 hcg hcg'
  subst hk
  subst hm
  subst h1
  subst h2
  subst h3
  subst h4
  rw [ClusterGroup.mk.injEq]
  refine ⟨rfl, rfl, rfl, ?_⟩
  rw [hcg, hcg']

theorem filterMap_toGroup?_sum (l : List (Cell × GroupAcc))
    (h : ∀ e ∈ l, (toGroup? e).isSome) :
    ((l.filterMap toGroup?).map (fun g => g.members.length)).sum
      = (l.map (fun e => e.2.members.length)).sum := by
  induction l with
  | nil => rfl
  | cons e rest ih =>
    rw [List.filterMap_cons]
    cases hge : toGroup? e with
    | none =>
      have := h e (List.mem_cons_self e rest)
      rw [hge] at this
      cases this
    | some g =>
      have hm : g.members = e.2.members := by
        have hacc := (toGroup?_eq_some hge).2.1
        rw [hacc]
      rw [List.map_cons, List.sum_cons, List.map_cons, List.sum_cons, hm,
        ih (fun x hx => h x (List.mem_cons_of_mem e hx))]

/-- C9: for every node list with distinct keys, position map and positive
grid size, `computeGridClusters` assigns each positioned node to exactly
one cluster group (the floor-divided grid cell of its position), member
lists of distinct groups are disjoint, the member counts sum to the
number of positioned nodes, and position-less nodes belong to no group. -/
theorem grid_clusters_partition (nodes : List NetworkNode)
    (positions : List (String × NodePos)) (gridSize : ℚ)
    (hnd : (nodes.map (·.key)).Nodup) (hgs : 0 < gridSize) :
    (∀ n ∈ nodes, ∀ p, mfind positions n.key = some p →
      mfind (computeGridClusters nodes positions gridSize).nodeToGroup n.key
          = some (cellOf gridSize p) ∧
      ∃ g ∈ (computeGridClusters nodes positions gridSize).groups,
        g.key = cellOf gridSize p ∧ n.key ∈ g.members ∧
        ∀ g' ∈ (computeGridClusters nodes positions gridSize).groups,
          n.key ∈ g'.members → g' = g) ∧
    (∀ g ∈ (computeGridClusters nodes positions gridSize).groups,
     ∀ g' ∈ (computeGridClusters nodes positions gridSize).groups,
      g ≠ g' → ∀ k, k ∈ g.members → k ∉ g'.members) ∧
    (((computeGridClusters nodes positions gridSize).groups.map
        (fun g => g.members.length)).sum
      = (nodes.filter (fun n => (mfind positions n.key).isSome)).length) ∧
    (∀ n ∈ nodes, mfind positions n.key = none →
      mfind (computeGridClusters nodes positions gridSize).nodeToGroup n.key
          = none ∧
      ∀ g ∈ (computeGridClusters nodes positions gridSize).groups,
        n.key ∉ g.members) := by
  obtain ⟨hstnd, hnone, hsome, hn2g, hn2gnone, hsum⟩ :=
    clusterInv_computeGridClusters gridSize positions nodes
  have hperm := computeGridClusters_groups_perm nodes positions gridSize
  refine ⟨?_, ?_, ?_, ?_⟩
  · -- each positioned node is in exactly one group
    intro n hn p hp
    have hn2 : mfind (computeGridClusters nodes positions gridSize).nodeToGroup
        n.key = some (cellOf gridSize p) := by
      rw [computeGridClusters_nodeToGroup, hn2g n hn, hp]
      rfl
    refine ⟨hn2, ?_⟩
    set c₀ := cellOf gridSize p with hc₀
    have hce : (n.key, p) ∈ cellEntries gridSize positions nodes c₀ :=
      mem_cellEntries.2 ⟨n, hn, rfl, hp, rfl⟩
    have hcen : cellEntries gridSize positions nodes c₀ ≠ [] :=
      fun h => by rw [h] at hce; cases hce
    have hst : ∃ acc, mfind (nodes.foldl (clusterStep gridSize positions)
        ([], [])).1 c₀ = some acc := by
      cases hmf : mfind (nodes.foldl (clusterStep gridSize positions) ([], [])).1 c₀ with
      | none => exact absurd (hnone c₀ hmf) hcen
      | some acc => exact ⟨acc, rfl⟩
    obtain ⟨acc, hacc⟩ := hst
    obtain ⟨haccEq, _⟩ := hsome c₀ acc hacc
    have hsm := entriesAcc_isSome_of_ne _ hcen
    rw [← haccEq] at hsm
    have hgs' : (toGroup? (c₀, acc)).isSome :=
      toGroup?_isSome_of_entry hsm.1 hsm.2.1 hsm.2.2.1 hsm.2.2.2
    obtain ⟨G, hG⟩ := Option.isSome_iff_exists.1 hgs'
    have hGmem : G ∈ (computeGridClusters nodes positions gridSize).groups := by
      rw [hperm.mem_iff]
      exact List.mem_filterMap.2 ⟨(c₀, acc), mfind_some_mem hacc, hG⟩
    obtain ⟨hGk, hGacc, _⟩ := toGroup?_eq_some hG
    have hGkey : G.key = c₀ := hGk.symm
    have hGmembers : G.members = acc.members := by
      have hacc2 : acc = (⟨G.members, some G.bounds.minX, some G.bounds.minY,
          some G.bounds.maxX, some G.bounds.maxY⟩ : GroupAcc) := hGacc
      rw [hacc2]
    have hkeyG : n.key ∈ G.members := by
      rw [hGmembers, haccEq, entriesAcc_members]
      exact List.mem_map.2 ⟨(n.key, p), hce, rfl⟩
    refine ⟨G, hGmem, hGkey, hkeyG, ?_⟩
    intro g' hg' hkeyg'
    obtain ⟨p', hp', hcell'⟩ := groups_member_key hg' hkeyg'
    rw [hp] at hp'
    injection hp' with hp'
    subst hp'
    have hkeq : g'.key = G.key := by rw [← hcell', hGkey]
    exact groups_eq_of_key_eq hg' hGmem hkeq
  · -- disjointness
    intro g hg g' hg' hne k hk hk'
    obtain ⟨p, hp, hc⟩ := groups_member_key hg hk
    obtain ⟨p', hp', hc'⟩ := groups_member_key hg' hk'
    rw [hp] at hp'
    injection hp' with hp'
    subst hp'
    have hkeq : g.key = g'.key := by rw [← hc, ← hc']
    exact hne (groups_eq_of_key_eq hg hg' hkeq)
  · -- member counts sum to the positioned-node count
    have hmap := (hperm.map (fun g => g.members.length)).sum_eq
    rw [hmap, filterMap_toGroup?_sum _ (fun e he => st_entry_toGroup?_isSome he),
      hsum]
  · -- position-less nodes belong to no group
    intro n hn hp
    constructor
    · rw [computeGridClusters_nodeToGroup, hn2g n hn, hp]
      rfl
    · intro g hg hk
      obtain ⟨p, hp', _⟩ := groups_member_key hg hk
      rw [hp] at hp'
      cases hp'

/-- Witness for C9: one node at the origin, grid size 160. -/
theorem grid_clusters_partition_witness :
    (([⟨"a", false⟩] : List NetworkNode).map (·.key)).Nodup ∧ (0 : ℚ) < 160 ∧
    (((computeGridClusters [⟨"a", false⟩] [("a", (⟨0, 0⟩ : NodePos))] 160).groups.map
        (fun g => g.members.length)).sum
      = (([⟨"a", false⟩] : List NetworkNode).filter
          (fun n => (mfind [("a", (⟨0, 0⟩ : NodePos))] n.key).isSome)).length) :=
  ⟨by decide, by decide,
   (grid_clusters_partition [⟨"a", false⟩] [("a", (⟨0, 0⟩ : NodePos))] 160
     (by decide) (by decide)).2.2.1⟩

/-- Nodes of the not-a-centroid example. -/
def c10Nodes : List NetworkNode := [⟨"a", false⟩, ⟨"b", false⟩, ⟨"c", false⟩]

/-- Positions of the not-a-centroid example: three nodes in one cell with
mean x-coordinate 200/3, while the padded-box midpoint has x = 50. -/
def c10Positions : List (String × NodePos) :=
  [("a", ⟨0, 0⟩), ("b", ⟨100, 0⟩), ("c", ⟨100, 0⟩)]

/-- C10: every returned cluster group has at least one member; its bounds
are exactly the fold of the members' positions padded by
`NODE_BOX_WIDTH/3` / `NODE_BOX_HEIGHT/3`; its center is the midpoint of
that padded box; and (concrete conjunct) this midpoint is in general not
the arithmetic mean of the member positions. -/
theorem cluster_group_center_is_padded_box_midpoint
    (nodes : List NetworkNode) (positions : List (String × NodePos))
    (gridSize : ℚ) (g : ClusterGroup)
    (hg : g ∈ (computeGridClusters nodes positions gridSize).groups) :
    (g.members ≠ [] ∧
     (entriesAcc (memberEntries positions g.members)).minX = some g.bounds.minX ∧
     (entriesAcc (memberEntries positions g.members)).minY = some g.bounds.minY ∧
     (entriesAcc (memberEntries positions g.members)).maxX = some g.bounds.maxX ∧
     (entriesAcc (memberEntries positions g.members)).maxY = some g.bounds.maxY ∧
     g.center = ⟨(g.bounds.minX + g.bounds.maxX) / 2,
                 (g.bounds.minY + g.bounds.maxY) / 2⟩) ∧
    ((computeGridClusters c10Nodes c10Positions 1000).groups.map
        (fun g => g.center.x) = [50] ∧
     (50 : ℚ) ≠ (0 + 100 + 100) / 3) := by
  constructor
  · obtain ⟨hf, hcen⟩ := groups_member_entry hg
    obtain ⟨_, _, hsome, _, _, _⟩ :=
      clusterInv_computeGridClusters gridSize positions nodes
    obtain ⟨haccEq, hne⟩ := hsome g.key _ hf
    have hmembers : g.members
        = (cellEntries gridSize positions nodes g.key).map (·.1) := by
      have := congrArg GroupAcc.members haccEq
      simpa [entriesAcc_members] using this
    have hrec : memberEntries positions g.members
        = cellEntries gridSize positions nodes g.key := by
      rw [hmembers]
      exact memberEntries_recover _ _ cellEntries_lookup
    have hfields := congrArg GroupAcc.minX haccEq
    have hfields2 := congrArg GroupAcc.minY haccEq
    have hfields3 := congrArg GroupAcc.maxX haccEq
    have hfields4 := congrArg GroupAcc.maxY haccEq
    simp only at hfields hfields2 hfields3 hfields4
    refine ⟨?_, ?_, ?_, ?_, ?_, hcen⟩
    · rw [hmembers]
      intro h
      exact hne (List.map_eq_nil_iff.1 h)
    · rw [hrec, ← hfields]
    · rw [hrec, ← hfields2]
    · rw [hrec, ← hfields3]
    · rw [hrec, ← hfields4]
  · constructor
    · have hf100 : ⌊(100 : ℚ) / 1000⌋ = 0 := by
        rw [Int.floor_eq_iff] <;> norm_num
      have hf0 : ⌊(0 : ℚ) / 1000⌋ = 0 := by norm_num
      simp only [computeGridClusters, c10Nodes, c10Positions]
      simp +decide only [clusterStep, mfind, mset, cellOf, List.foldl,
        hf100, hf0]
      norm_num [finStep, sortGroups, insertSortedG, toGroup?, growAcc,
        emptyAcc, omin, omax, List.foldr, List.filterMap, cellLe, Option.getD,
        mfind, mset, List.foldl, padX, padY, NODE_BOX_WIDTH, NODE_BOX_HEIGHT,
        min_def, max_def]
    · norm_num

/-- The single cluster group of the one-node witness instance. -/
def c10WitnessGroup : ClusterGroup :=
  ⟨(0, 0), ["a"], ⟨0 - padX, 0 - padY, 0 + padX, 0 + padY⟩,
   ⟨((0 - padX) + (0 + padX)) / 2, ((0 - padY) + (0 + padY)) / 2⟩⟩

/-- Witness for C10 at a single node placed at the origin. -/
theorem cluster_group_center_is_padded_box_midpoint_witness :
    c10WitnessGroup
        ∈ (computeGridClusters [⟨"a", false⟩] [("a", (⟨0, 0⟩ : NodePos))] 160).groups ∧
    c10WitnessGroup.members ≠ [] := by
  have hgeq : (computeGridClusters [⟨"a", false⟩]
      [("a", (⟨0, 0⟩ : NodePos))] 160).groups = [c10WitnessGroup] := by
    simp [computeGridClusters, clusterStep, mfind, mset, cellOf, finStep,
      sortGroups, insertSortedG, toGroup?, growAcc, emptyAcc, omin, omax,
      List.foldl, List.foldr, List.filterMap, zero_div, Int.floor_zero,
      c10WitnessGroup]
  have hmem : c10WitnessGroup
      ∈ (computeGridClusters [⟨"a", false⟩]
          [("a", (⟨0, 0⟩ : NodePos))] 160).groups := by
    rw [hgeq]
    exact List.mem_singleton_self _
  exact ⟨hmem,
    (cluster_group_center_is_padded_box_midpoint [⟨"a", false⟩]
      [("a", (⟨0, 0⟩ : NodePos))] 160 c10WitnessGroup hmem).1.1⟩

/-! ## computeAggregatedEdges (NetworkGraph.cluster.ts, part_002 lines 119-161) -/

/-- One result record `{ from, to, count }` of `computeAggregatedEdges`. -/
structure AggEdge where
  «from» : String
  «to» : String
  count : Nat
deriving DecidableEq

/-- Loop body of `computeAggregatedEdges` for one edge.  The nested
`Map<string, Map<string, number>>` is an insertion-ordered association list of
association lists.  JS `!gFrom` is true for a missing binding and for the empty
string, so both are skipped; `groupSizes.get(g) ?? 1` defaults to 1. -/
def aggStep (nodeToGroup : List (String × String)) (groupSizes : List (String × Nat))
    (m : List (String × List (String × Nat))) (e : NetworkEdge) :
    List (String × List (String × Nat)) :=
  match mfind nodeToGroup e.«from», mfind nodeToGroup e.«to» with
  | some gFrom, some gTo =>
    if gFrom = "" ∨ gTo = "" then m
    else if gFrom = gTo then m
    else
      let fromSize := (mfind groupSizes gFrom).getD 1
      let toSize := (mfind groupSizes gTo).getD 1
      if fromSize = 1 ∧ toSize = 1 then m
      else
        let inner := (mfind m gFrom).getD []
        mset m gFrom (mset inner gTo ((mfind inner gTo).getD 0 + 1))
  | _, _ => m

/-- `computeAggregatedEdges`: fold the loop body over the edges, then flatten
the nested map in insertion order into `{ from, to, count }` records. -/
def computeAggregatedEdges (edges : List NetworkEdge)
    (nodeToGroup : List (String × String)) (groupSizes : List (String × Nat)) :
    List AggEdge :=
  let map := edges.foldl (aggStep nodeToGroup groupSizes) []
  map.foldl (fun res p => res ++ p.2.map (fun q => ⟨p.1, q.1, q.2⟩)) []

/-- The condition under which one edge contributes to the ordered aggregated
pair `(a, b)` (read off the skip branches of the loop). -/
def contributes (nodeToGroup : List (String × String))
    (groupSizes : List (String × Nat)) (a b : String) (e : NetworkEdge) : Bool :=
  match mfind nodeToGroup e.«from», mfind nodeToGroup e.«to» with
  | some gFrom, some gTo =>
    gFrom == a && gTo == b && !(gFrom == "") && !(gTo == "") && !(gFrom == gTo) &&
      !((mfind groupSizes gFrom).getD 1 == 1 && (mfind groupSizes gTo).getD 1 == 1)
  | _, _ => false

/-- Number of edges of the list contributing to the ordered pair `(a, b)`. -/
def countContrib (nodeToGroup : List (String × String))
    (groupSizes : List (String × Nat)) (edges : List NetworkEdge)
    (a b : String) : Nat :=
  (edges.filter (contributes nodeToGroup groupSizes a b)).length

/-- Lookup in the nested map. -/
def mfind2 (m : List (String × List (String × Nat))) (a b : String) : Option Nat :=
  match mfind m a with
  | some inner => mfind inner b
  | none => none

theorem countContrib_append (n2g : List (String × String))
    (sizes : List (String × Nat)) (done : List NetworkEdge) (e : NetworkEdge)
    (a b : String) :
    countContrib n2g sizes (done ++ [e]) a b =
      countContrib n2g sizes done a b +
        (if contributes n2g sizes a b e = true then 1 else 0) := by
  by_cases h : contributes n2g sizes a b e = true <;>
    simp [countContrib, List.filter_append, List.filter, h]

theorem nodup_mset_fst {K V : Type} [DecidableEq K] {m : List (K × V)} (k : K)
    (v : V) (hnd : (m.map (·.1)).Nodup) : ((mset m k v).map (·.1)).Nodup := by
  cases hf : mfind m k with
  | some w => rw [mset_map_fst_of_isSome v (by simp [hf])]; exact hnd
  | none =>
    rw [mset_map_fst_of_none v hf]
    have hk := (mfind_eq_none_iff m k).1 hf
    simp [List.nodup_append, hnd, hk]

theorem mem_mset {K V : Type} [DecidableEq K] {m : List (K × V)} {k : K} {v : V}
    {p : K × V} (h : p ∈ mset m k v) : p ∈ m ∨ p = (k, v) := by
  induction m with
  | nil => right; simpa [mset] using h
  | cons e rest ih =>
    obtain ⟨k', v'⟩ := e
    by_cases hk : k' = k
    · subst hk
      simp only [mset, if_pos rfl] at h
      cases h with
      | head => simp
      | tail _ h2 => left; exact List.mem_cons_of_mem _ h2
    · simp only [mset, if_neg hk] at h
      cases h with
      | head => left; exact List.mem_cons_self _ _
      | tail _ h2 =>
        cases ih h2 with
        | inl h3 => left; exact List.mem_cons_of_mem _ h3
        | inr h3 => right; exact h3

theorem contributes_eq_true_iff {n2g : List (String × String)}
    {sizes : List (String × Nat)} (a b : String) {e : NetworkEdge}
    {gF gT : String} (hF : mfind n2g e.«from» = some gF)
    (hT : mfind n2g e.«to» = some gT) :
    contributes n2g sizes a b e = true ↔
      (gF = a ∧ gT = b ∧ gF ≠ "" ∧ gT ≠ "" ∧ gF ≠ gT ∧
        ¬((mfind sizes gF).getD 1 = 1 ∧ (mfind sizes gT).getD 1 = 1)) := by
  simp [contributes, hF, hT, and_assoc]
  tauto

theorem contributes_eq_false_of_find_none {n2g : List (String × String)}
    {sizes : List (String × Nat)} (a b : String) {e : NetworkEdge}
    (h : mfind n2g e.«from» = none ∨ mfind n2g e.«to» = none) :
    contributes n2g sizes a b e = false := by
  unfold contributes
  rcases h with h | h <;> rw [h] <;>
    cases mfind n2g e.«to» <;> cases mfind n2g e.«from» <;> rfl

/-- Invariant of the aggregation loop after processing the edges `done`: the
nested map has duplicate-free keys at both levels and stores, for every
ordered group pair, exactly the number of contributing processed edges
(the binding is absent iff that number is zero). -/
def AggInv (n2g : List (String × String)) (sizes : List (String × Nat))
    (done : List NetworkEdge) (m : List (String × List (String × Nat))) : Prop :=
  (m.map (·.1)).Nodup ∧
  (∀ p ∈ m, (p.2.map (·.1)).Nodup) ∧
  (∀ a b, mfind2 m a b =
    if countContrib n2g sizes done a b = 0 then none
    else some (countContrib n2g sizes done a b))

theorem aggInv_nil (n2g : List (String × String)) (sizes : List (String × Nat)) :
    AggInv n2g sizes [] [] :=
  ⟨by simp, by simp, fun a b => by simp [mfind2, mfind, countContrib]⟩

theorem aggInv_step {n2g : List (String × String)} {sizes : List (String × Nat)}
    {done : List NetworkEdge} {m : List (String × List (String × Nat))}
    (hinv : AggInv n2g sizes done m) (e : NetworkEdge) :
    AggInv n2g sizes (done ++ [e]) (aggStep n2g sizes m e) := by
  obtain ⟨hnd, hinner, hcount⟩ := hinv
  unfold aggStep
  cases hF : mfind n2g e.«from» with
  | none =>
    have hskip : ∀ a b, contributes n2g sizes a b e = false := fun a b =>
      contributes_eq_false_of_find_none a b (Or.inl hF)
    cases hT : mfind n2g e.«to» <;>
      exact ⟨hnd, hinner, fun a b => by
        rw [countContrib_append, hskip a b]
        simpa using hcount a b⟩
  | some gF =>
    cases hT : mfind n2g e.«to» with
    | none =>
      have hskip : ∀ a b, contributes n2g sizes a b e = false := fun a b =>
        contributes_eq_false_of_find_none a b (Or.inr hT)
      exact ⟨hnd, hinner, fun a b => by
        rw [countContrib_append, hskip a b]
        simpa using hcount a b⟩
    | some gT =>
      dsimp only
      by_cases h0 : gF = "" ∨ gT = ""
      · rw [if_pos h0]
        have hskip : ∀ a b, contributes n2g sizes a b e = false := by
          intro a b
          cases hcb : contributes n2g sizes a b e with
          | false => rfl
          | true =>
            obtain ⟨_, _, x3, x4, _, _⟩ := (contributes_eq_true_iff a b hF hT).1 hcb
            rcases h0 with h0 | h0
            · exact absurd h0 x3
            · exact absurd h0 x4
        exact ⟨hnd, hinner, fun a b => by
          rw [countContrib_append, hskip a b]
          simpa using hcount a b⟩
      · rw [if_neg h0]
        push_neg at h0
        by_cases h1 : gF = gT
        · rw [if_pos h1]
          have hskip : ∀ a b, contributes n2g sizes a b e = false := by
            intro a b
            cases hcb : contributes n2g sizes a b e with
            | false => rfl
            | true =>
              obtain ⟨_, _, _, _, x5, _⟩ := (contributes_eq_true_iff a b hF hT).1 hcb
              exact absurd h1 x5
          exact ⟨hnd, hinner, fun a b => by
            rw [countContrib_append, hskip a b]
            simpa using hcount a b⟩
        · rw [if_neg h1]
          by_cases h2 : (mfind sizes gF).getD 1 = 1 ∧ (mfind sizes gT).getD 1 = 1
          · rw [if_pos h2]
            have hskip : ∀ a b, contributes n2g sizes a b e = false := by
              intro a b
              cases hcb : contributes n2g sizes a b e with
              | false => rfl
              | true =>
                obtain ⟨_, _, _, _, _, x6⟩ := (contributes_eq_true_iff a b hF hT).1 hcb
                exact absurd h2 x6
            exact ⟨hnd, hinner, fun a b => by
              rw [countContrib_append, hskip a b]
              simpa using hcount a b⟩
          · rw [if_neg h2]
            have hconT : contributes n2g sizes gF gT e = true :=
              (contributes_eq_true_iff gF gT hF hT).2 ⟨rfl, rfl, h0.1, h0.2, h1, h2⟩
            have hconF : ∀ a b, ¬(gF = a ∧ gT = b) →
                contributes n2g sizes a b e = false := by
              intro a b hab
              cases hcb : contributes n2g sizes a b e with
              | false => rfl
              | true =>
                obtain ⟨x1, x2, _⟩ := (contributes_eq_true_iff a b hF hT).1 hcb
                exact absurd ⟨x1, x2⟩ hab
            refine ⟨nodup_mset_fst _ _ hnd, ?_, ?_⟩
            · intro p hp
              rcases mem_mset hp with hin | heq
              · exact hinner p hin
              · subst heq
                apply nodup_mset_fst
                cases hfm : mfind m gF with
                | none => simp
                | some i => simpa using hinner _ (mfind_some_mem hfm)
            · intro a b
              by_cases ha : a = gF
              · subst ha
                simp only [mfind2, mfind_mset_self]
                by_cases hb : b = gT
                · subst hb
                  rw [mfind_mset_self, countContrib_append, hconT]
                  have h0' := hcount a b
                  unfold mfind2 at h0'
                  cases hfm : mfind m a with
                  | none =>
                    rw [hfm] at h0'
                    dsimp only at h0'
                    split_ifs at h0' with hc0
                    simp [mfind, hc0]
                  | some i =>
                    rw [hfm] at h0'
                    dsimp only at h0'
                    split_ifs at h0' with hc0
                    · simp [h0', hc0]
                    · simp [h0']
                · rw [mfind_mset_ne _ _ hb, countContrib_append,
                    hconF a b (fun hab => hb hab.2.symm)]
                  have h0' := hcount a b
                  unfold mfind2 at h0'
                  cases hfm : mfind m a with
                  | none =>
                    rw [hfm] at h0'
                    dsimp only at h0'
                    simpa [mfind] using h0'
                  | some i =>
                    rw [hfm] at h0'
                    dsimp only at h0'
                    simpa using h0'
              · have hne : ¬(gF = a ∧ gT = b) := fun hab => ha hab.1.symm
                simp only [mfind2, mfind_mset_ne _ _ ha]
                rw [countContrib_append, hconF a b hne]
                have h0' := hcount a b
                unfold mfind2 at h0'
                simpa using h0'

theorem aggInv_foldl (n2g : List (String × String)) (sizes : List (String × Nat))
    (edges : List NetworkEdge) :
    AggInv n2g sizes edges (edges.foldl (aggStep n2g sizes) []) := by
  suffices h : ∀ es done m, AggInv n2g sizes done m →
      AggInv n2g sizes (done ++ es) (es.foldl (aggStep n2g sizes) m) by
    simpa using h edges [] [] (aggInv_nil n2g sizes)
  intro es
  induction es with
  | nil => intro done m hm; simpa using hm
  | cons e rest ih =>
    intro done m hm
    have h2 := ih (done ++ [e]) (aggStep n2g sizes m e) (aggInv_step hm e)
    simpa [List.append_assoc] using h2

theorem mem_foldl_flatten {α β : Type} (f : β → List α) (l : List β)
    (acc : List α) (x : α) :
    x ∈ l.foldl (fun res p => res ++ f p) acc ↔ x ∈ acc ∨ ∃ p ∈ l, x ∈ f p := by
  induction l generalizing acc with
  | nil => simp
  | cons e rest ih =>
    rw [List.foldl_cons, ih]
    simp only [List.mem_append, List.mem_cons, or_assoc]
    constructor
    · rintro (h | h | ⟨p, hp, hx⟩)
      · exact Or.inl h
      · exact Or.inr ⟨e, Or.inl rfl, h⟩
      · exact Or.inr ⟨p, Or.inr hp, hx⟩
    · rintro (h | ⟨p, hp | hp, hx⟩)
      · exact Or.inl h
      · subst hp; exact Or.inr (Or.inl hx)
      · exact Or.inr (Or.inr ⟨p, hp, hx⟩)

/-- Flattening a nested map with duplicate-free keys yields exactly the
bindings of `mfind2`. -/
theorem mem_flatten_nested {m : List (String × List (String × Nat))}
    (hnd : (m.map (·.1)).Nodup) (hinner : ∀ p ∈ m, (p.2.map (·.1)).Nodup)
    (a b : String) (c : Nat) :
    ((⟨a, b, c⟩ : AggEdge) ∈
        m.foldl (fun res p => res ++ p.2.map (fun q => ⟨p.1, q.1, q.2⟩)) []) ↔
      mfind2 m a b = some c := by
  rw [mem_foldl_flatten]
  simp only [List.not_mem_nil, false_or]
  constructor
  · rintro ⟨p, hp, hx⟩
    obtain ⟨pk, pv⟩ := p
    rw [List.mem_map] at hx
    obtain ⟨q, hq, hxq⟩ := hx
    obtain ⟨qk, qv⟩ := q
    simp only [AggEdge.mk.injEq] at hxq
    obtain ⟨h1, h2, h3⟩ := hxq
    subst h1; subst h2; subst h3
    unfold mfind2
    rw [mem_mfind_of_nodup hnd hp]
    exact mem_mfind_of_nodup (hinner _ hp) hq
  · intro h
    unfold mfind2 at h
    cases hfm : mfind m a with
    | none =>
      rw [hfm] at h
      dsimp only at h
      cases h
    | some inner =>
      rw [hfm] at h
      dsimp only at h
      refine ⟨(a, inner), mfind_some_mem hfm, ?_⟩
      rw [List.mem_map]
      exact ⟨(b, c), mfind_some_mem h, rfl⟩

theorem mem_computeAggregatedEdges_iff (edges : List NetworkEdge)
    (n2g : List (String × String)) (sizes : List (String × Nat))
    (a b : String) (c : Nat) :
    ((⟨a, b, c⟩ : AggEdge) ∈ computeAggregatedEdges edges n2g sizes) ↔
      mfind2 (edges.foldl (aggStep n2g sizes) []) a b = some c := by
  obtain ⟨hnd, hinner, -⟩ := aggInv_foldl n2g sizes edges
  unfold computeAggregatedEdges
  exact mem_flatten_nested hnd hinner a b c

theorem contributes_true_spec {n2g : List (String × String)}
    {sizes : List (String × Nat)} {a b : String} {e : NetworkEdge}
    (h : contributes n2g sizes a b e = true) :
    a ≠ b ∧ ¬((mfind sizes a).getD 1 = 1 ∧ (mfind sizes b).getD 1 = 1) := by
  cases hF : mfind n2g e.«from» with
  | none => rw [contributes_eq_false_of_find_none a b (Or.inl hF)] at h; cases h
  | some gF =>
    cases hT : mfind n2g e.«to» with
    | none => rw [contributes_eq_false_of_find_none a b (Or.inr hT)] at h; cases h
    | some gT =>
      obtain ⟨h1, h2, _, _, h5, h6⟩ := (contributes_eq_true_iff a b hF hT).1 h
      subst h1; subst h2
      exact ⟨h5, h6⟩

/-- C8 (amended).  `computeAggregatedEdges` emits the record `(a, b, c)` iff
`c` is the (positive) number of edges whose endpoints map to the nonempty
group names `a` resp. `b` with `a ≠ b` and NOT both recorded group sizes
equal to 1 (a missing size defaults to 1).  Counts are directional and summed
per ordered pair.  Consequently no emitted aggregated edge has both endpoint
groups of RECORDED size 1 — but "at least one side has more than one member"
is wrong for the code: a recorded size of 0 also defeats the both-singleton
filter, as the counterexample shows. -/
theorem aggregated_edges_characterization (edges : List NetworkEdge)
    (nodeToGroup : List (String × String)) (groupSizes : List (String × Nat)) :
    (∀ a b c, ((⟨a, b, c⟩ : AggEdge) ∈
        computeAggregatedEdges edges nodeToGroup groupSizes) ↔
      (c = countContrib nodeToGroup groupSizes edges a b ∧ 1 ≤ c)) ∧
    (∀ a b c, ((⟨a, b, c⟩ : AggEdge) ∈
        computeAggregatedEdges edges nodeToGroup groupSizes) →
      a ≠ b ∧
        ¬((mfind groupSizes a).getD 1 = 1 ∧ (mfind groupSizes b).getD 1 = 1)) := by
  have hmain : ∀ a b c, ((⟨a, b, c⟩ : AggEdge) ∈
      computeAggregatedEdges edges nodeToGroup groupSizes) ↔
      (c = countContrib nodeToGroup groupSizes edges a b ∧ 1 ≤ c) := by
    intro a b c
    rw [mem_computeAggregatedEdges_iff]
    obtain ⟨-, -, hcount⟩ := aggInv_foldl nodeToGroup groupSizes edges
    rw [hcount a b]
    split_ifs with hc0
    · constructor
      · intro h; cases h
      · rintro ⟨rfl, h2⟩; omega
    · constructor
      · intro h
        injection h with h
        subst h
        exact ⟨rfl, by omega⟩
      · rintro ⟨rfl, -⟩; rfl
  refine ⟨hmain, ?_⟩
  intro a b c hmem
  obtain ⟨hc, hge⟩ := (hmain a b c).1 hmem
  have hpos : 0 < countContrib nodeToGroup groupSizes edges a b := by omega
  have hne : edges.filter (contributes nodeToGroup groupSizes a b) ≠ [] := by
    intro hnil
    unfold countContrib at hpos
    rw [hnil] at hpos
    simp at hpos
  obtain ⟨e, he⟩ := List.exists_mem_of_ne_nil _ hne
  exact contributes_true_spec (List.mem_filter.1 he).2

/-- C8 counterexample: with recorded group sizes g1 ↦ 0 and g2 ↦ 1 neither
group has more than one member, yet the single edge x→y is aggregated into
(g1, g2) with count 1, because the code's filter only skips the exact case
fromSize = 1 and toSize = 1. -/
theorem aggregated_edge_without_large_group :
    computeAggregatedEdges [⟨"x", "y"⟩] [("x", "g1"), ("y", "g2")]
        [("g1", 0), ("g2", 1)] = [⟨"g1", "g2", 1⟩] ∧
    ¬ 1 < (mfind [("g1", (0 : Nat)), ("g2", 1)] "g1").getD 1 ∧
    ¬ 1 < (mfind [("g1", (0 : Nat)), ("g2", 1)] "g2").getD 1 := by decide

theorem aggregated_edges_characterization_witness :
    "g1" ≠ "g2" ∧
      ¬((mfind [("g1", (2 : Nat)), ("g2", 1)] "g1").getD 1 = 1 ∧
        (mfind [("g1", (2 : Nat)), ("g2", 1)] "g2").getD 1 = 1) :=
  (aggregated_edges_characterization [⟨"x", "y"⟩] [("x", "g1"), ("y", "g2")]
      [("g1", 2), ("g2", 1)]).2 "g1" "g2" 1 (by decide)

end NG
